import Mathlib

/-!
# vrt_split: final file naming, stream registry and clean-up protocol

A shallow embedding of `split/src/process.cpp` (namespace `vrt::split`):
`final_file_path`, `finish`, `signal_handler` and the read loop of `process`.

* File paths are lists of characters; the `std::filesystem::path` operations used by
  `final_file_path` (`parent_path`, `stem`, `extension`, `operator/=`, `operator+=`) are
  embedded for the POSIX generic format.
* `operator<<` with `std::hex << std::uppercase` on an unsigned integer is `hex_upper`.
* The calls made on `OutputStream` objects are recorded in a trace; whether a call throws,
  and which class of exception, is decided by an oracle indexed by the number of calls
  made so far.
-/

namespace vrt.split

/-! ## Formatting of unsigned integers -/

/-- One uppercase hexadecimal digit: `'0'..'9'`, `'A'..'F'`. -/
def hex_digit (d : Nat) : Char :=
  if d < 10 then Char.ofNat (48 + d) else Char.ofNat (55 + d)

/-- Digit loop of the integer formatter: most significant digit first, `fuel` bounds the
number of digits. -/
def hex_upper_aux : Nat → Nat → List Char → List Char
  | 0, _, acc => acc
  | fuel + 1, n, acc =>
    if n < 16 then hex_digit n :: acc
    else hex_upper_aux fuel (n / 16) (hex_digit (n % 16) :: acc)

/-- The characters `body << std::hex << std::uppercase << n` inserts for an unsigned `n`
(no `showbase`, no width, no fill). -/
def hex_upper (n : Nat) : List Char := hex_upper_aux (n + 1) n []

/-! ## `std::filesystem::path`, POSIX generic format -/

/-- A path in its native string form. -/
abbrev fs_path := List Char

/-- The directory separator. -/
def sep : Char := '/'

/-- `path::filename()`: the characters after the last separator. -/
def filename (p : fs_path) : fs_path :=
  (p.reverse.takeWhile (fun c => c != sep)).reverse

/-- Position of the dot that starts the extension of a file name, if it has one: none for
`.` and `..` and for a name whose only dot is the leading one. -/
def extension_pos (f : List Char) : Option Nat :=
  if f.length ≤ 2 ∧ f.head? = some '.' then none
  else
    let r := (f.reverse.takeWhile (fun c => c != '.')).length
    if r = f.length then none            -- no dot at all
    else if r + 1 = f.length then none   -- the only dot is the leading one
    else some (f.length - (r + 1))

/-- `path::stem()`. -/
def stem (p : fs_path) : fs_path :=
  match extension_pos (filename p) with
  | none => filename p
  | some i => (filename p).take i

/-- `path::extension()`. -/
def extension (p : fs_path) : fs_path :=
  match extension_pos (filename p) with
  | none => []
  | some i => (filename p).drop i

/-- `path::parent_path()`: the path itself when it has no relative part, otherwise the
prefix that ends with the last but one component. -/
def parent_path (p : fs_path) : fs_path :=
  if p.all (fun c => c == sep) then p
  else
    let pre := p.reverse.dropWhile (fun c => c != sep)
    let d := (pre.dropWhile (fun c => c == sep)).reverse
    if pre.isEmpty then [] else if d.isEmpty then [sep] else d

/-- `path::operator/=`: an absolute right operand or an empty left operand replaces, otherwise
a separator is inserted unless the left operand already ends with one. -/
def path_append (d s : fs_path) : fs_path :=
  if s.head? = some sep ∨ d = [] then s
  else if d.getLast? = some sep then d ++ s
  else d ++ sep :: s

/-! ## Packets -/

/-- The packet types of `vrt_types.h`. -/
inductive vrt_packet_type
  | VRT_PT_IF_DATA_WITHOUT_STREAM_ID
  | VRT_PT_IF_DATA_WITH_STREAM_ID
  | VRT_PT_EXT_DATA_WITHOUT_STREAM_ID
  | VRT_PT_EXT_DATA_WITH_STREAM_ID
  | VRT_PT_IF_CONTEXT
  | VRT_PT_EXT_CONTEXT
  deriving DecidableEq, Repr

/-- The header fields the splitter looks at. -/
structure vrt_header where
  packet_type : vrt_packet_type
  has_class_id : Bool
  packet_size : Nat
  deriving DecidableEq, Repr

/-- The class identifier: `oui` (`uint32_t`), `information_class_code` and
`packet_class_code` (`uint16_t`). -/
structure vrt_class_id where
  oui : Nat
  information_class_code : Nat
  packet_class_code : Nat
  deriving DecidableEq, Repr

/-- The fields section: `stream_id` (`uint32_t`) and the class identifier. -/
structure vrt_fields where
  stream_id : Nat
  class_id : vrt_class_id
  deriving DecidableEq, Repr

/-- A decoded packet. -/
structure vrt_packet where
  header : vrt_header
  fields : vrt_fields
  deriving DecidableEq, Repr

/-- `vrt_has_stream_id` of `vrt_util.h`: every packet type but the two data types without a
stream identifier carries one. -/
def vrt_has_stream_id (h : vrt_header) : Bool :=
  match h.packet_type with
  | .VRT_PT_IF_DATA_WITHOUT_STREAM_ID => false
  | .VRT_PT_EXT_DATA_WITHOUT_STREAM_ID => false
  | _ => true

/-- The result of `packet_id_differences`, with the members `final_file_path` reads. -/
structure PacketIdDiffs where
  any_has_class_id : Bool
  diff_oui : Bool
  diff_icc : Bool
  diff_pcc : Bool
  any_has_stream_id : Bool
  diff_sid : Bool
  deriving DecidableEq, Repr

/-! ## `final_file_path` -/

/-- The class-identifier part of `body` (lines 71-85). -/
def body_class_id (packet : vrt_packet) (diffs : PacketIdDiffs) : List Char :=
  if diffs.any_has_class_id then
    if packet.header.has_class_id then
      (if diffs.diff_oui then '_' :: hex_upper packet.fields.class_id.oui else []) ++
      (if diffs.diff_icc then '_' :: hex_upper packet.fields.class_id.information_class_code
        else []) ++
      (if diffs.diff_pcc then '_' :: hex_upper packet.fields.class_id.packet_class_code
        else [])
    else "_X_X_X".toList
  else []

/-- The stream-identifier part of `body` (lines 86-95). -/
def body_stream_id (packet : vrt_packet) (diffs : PacketIdDiffs) : List Char :=
  if diffs.any_has_stream_id then
    '_' ::
      (if vrt_has_stream_id packet.header then
        (if diffs.diff_sid then hex_upper packet.fields.stream_id else [])
      else "X".toList)
  else []

/-- The contents of the string stream `body` when the path is assembled. -/
def body (packet : vrt_packet) (diffs : PacketIdDiffs) : List Char :=
  body_class_id packet diffs ++ body_stream_id packet diffs

/-- `final_file_path`: directory `/=` stem, `+=` body, `+=` extension. -/
def final_file_path (file_path_in : fs_path) (packet : vrt_packet) (diffs : PacketIdDiffs) :
    fs_path :=
  path_append (parent_path file_path_in) (stem file_path_in) ++ body packet diffs ++
    extension file_path_in


/-! ## Reading hexadecimal back (used to state what `hex_upper` prints) -/

/-- Value of a hexadecimal digit character. -/
def hex_digit_value (c : Char) : Nat :=
  if c.toNat < 58 then c.toNat - 48 else c.toNat - 55

/-- Value of a string of hexadecimal digits, most significant first. -/
def hex_value (l : List Char) : Nat :=
  l.foldl (fun acc c => 16 * acc + hex_digit_value c) 0

/-- The sixteen uppercase hexadecimal digits. -/
def hex_digits : List Char := "0123456789ABCDEF".toList

/-- The class-identifier suffix as the naming scheme words it: for each of OUI, information
class code and packet class code, in that order, whose flag is set, an underscore followed
by the value in uppercase hexadecimal. -/
def class_id_suffix (c : vrt_class_id) (diffs : PacketIdDiffs) : List Char :=
  (([(diffs.diff_oui, c.oui), (diffs.diff_icc, c.information_class_code),
      (diffs.diff_pcc, c.packet_class_code)].filter (fun f => f.1)).map
    (fun f => '_' :: hex_upper f.2)).flatten

/-! ## Packet identity -/

/-- The grouping key of a packet: the class identifier when the header has one, the stream
identifier when the packet type carries one. -/
structure PacketIdentity where
  class_id : Option (Nat × Nat × Nat)
  stream_id : Option Nat
  deriving DecidableEq, Repr

/-- The identity of a packet (presence-aware: a field that is absent does not count). -/
def identity (p : vrt_packet) : PacketIdentity :=
  { class_id :=
      if p.header.has_class_id then
        some (p.fields.class_id.oui, p.fields.class_id.information_class_code,
          p.fields.class_id.packet_class_code)
      else none
    stream_id := if vrt_has_stream_id p.header then some p.fields.stream_id else none }

/-- What the map requires of its comparator: a strict weak order, whose equivalence is
equality of identities. -/
structure IdentityOrder (comp : vrt_packet → vrt_packet → Bool) : Prop where
  trans : ∀ a b c, comp a b = true → comp b c = true → comp a c = true
  equiv : ∀ a b, (comp a b = false ∧ comp b a = false) ↔ identity a = identity b

/-- The fields of an identity in comparison order, presence before value. -/
def identity_key (i : PacketIdentity) : List Nat :=
  (match i.class_id with
    | none => [0, 0, 0, 0]
    | some (o, c, p) => [1, o, c, p]) ++
  (match i.stream_id with
    | none => [0, 0]
    | some s => [1, s])

/-- Modelled from the spec: `ComparatorId` of `comparator_id.h`, which is not among the
sources. Section 4.1: first by presence of the class identifier, then by OUI, information
class code and packet class code when present, then by presence of the stream identifier,
then by the stream identifier when present. -/
def ComparatorId (a b : vrt_packet) : Bool :=
  decide (identity_key (identity a) < identity_key (identity b))

/-- Modelled from the spec: the flags of section 3 computed from the distinct identities.
A group is flagged present when some identity has it; a field is flagged as differing when
the presence of its group varies or two identities that have it disagree on its value. -/
def computeDiff (ids : List PacketIdentity) : PacketIdDiffs :=
  let cs := ids.filterMap (fun i => i.class_id)
  let ss := ids.filterMap (fun i => i.stream_id)
  let varies (present : List Bool) : Bool := present.any id && present.any not
  let differ (xs : List Nat) : Bool := xs.any (fun x => xs.any (fun y => x != y))
  let vc := varies (ids.map (fun i => i.class_id.isSome))
  let vs := varies (ids.map (fun i => i.stream_id.isSome))
  { any_has_class_id := !cs.isEmpty
    diff_oui := vc || differ (cs.map (fun c => c.1))
    diff_icc := vc || differ (cs.map (fun c => c.2.1))
    diff_pcc := vc || differ (cs.map (fun c => c.2.2))
    any_has_stream_id := !ss.isEmpty
    diff_sid := vs || differ ss }

/-- Modelled from the spec: `packet_id_differences` of `packet_id_differences.h`, which is
not among the sources: the flags of the identities of the given packets. -/
def packet_id_differences (v : List vrt_packet) : PacketIdDiffs :=
  computeDiff (v.map identity)

/-- Flags that are sound for a set of packets: a group flag says that some packet has the
group; a field flag says that the presence of its group varies or that two packets that have
the group disagree on the field. -/
structure sound_flags (v : List vrt_packet) (diffs : PacketIdDiffs) : Prop where
  any_class : diffs.any_has_class_id = true ↔ ∃ p ∈ v, p.header.has_class_id = true
  any_stream : diffs.any_has_stream_id = true ↔ ∃ p ∈ v, vrt_has_stream_id p.header = true
  oui : diffs.diff_oui = true ↔
    ((∃ p ∈ v, ∃ q ∈ v, p.header.has_class_id ≠ q.header.has_class_id) ∨
      ∃ p ∈ v, ∃ q ∈ v, p.header.has_class_id = true ∧ q.header.has_class_id = true ∧
        p.fields.class_id.oui ≠ q.fields.class_id.oui)
  icc : diffs.diff_icc = true ↔
    ((∃ p ∈ v, ∃ q ∈ v, p.header.has_class_id ≠ q.header.has_class_id) ∨
      ∃ p ∈ v, ∃ q ∈ v, p.header.has_class_id = true ∧ q.header.has_class_id = true ∧
        p.fields.class_id.information_class_code ≠ q.fields.class_id.information_class_code)
  pcc : diffs.diff_pcc = true ↔
    ((∃ p ∈ v, ∃ q ∈ v, p.header.has_class_id ≠ q.header.has_class_id) ∨
      ∃ p ∈ v, ∃ q ∈ v, p.header.has_class_id = true ∧ q.header.has_class_id = true ∧
        p.fields.class_id.packet_class_code ≠ q.fields.class_id.packet_class_code)
  sid : diffs.diff_sid = true ↔
    ((∃ p ∈ v, ∃ q ∈ v, vrt_has_stream_id p.header ≠ vrt_has_stream_id q.header) ∨
      ∃ p ∈ v, ∃ q ∈ v, vrt_has_stream_id p.header = true ∧
        vrt_has_stream_id q.header = true ∧ p.fields.stream_id ≠ q.fields.stream_id)

/-! ## Output streams, calls and traces -/

/-- The exception classes the catch clauses tell apart. -/
inductive Exn
  /-- A `std::filesystem::filesystem_error`. -/
  | filesystem_error
  /-- Any other exception, caught by `catch (...)` only. -/
  | other
  deriving DecidableEq, Repr

/-- An `OutputStream` object, identified by the arguments of its constructor. -/
structure OutputStream where
  file_path_in : fs_path
  packet : vrt_packet
  deriving DecidableEq, Repr

/-- The calls `process.cpp` makes on output streams, and the message on `std::cerr`. -/
inductive Call
  /-- `std::make_unique<OutputStream>(args.file_path_in, packet)`. -/
  | construct (s : OutputStream)
  /-- `write(packet->header, input_stream.get_data_buffer())`. -/
  | write (s : OutputStream) (header : vrt_header) (data : List Nat)
  /-- `rename(file_out)`. -/
  | rename (s : OutputStream) (file_out : fs_path)
  /-- `remove_temporary()`. -/
  | remove_temporary (s : OutputStream)
  /-- `remove_new()`. -/
  | remove_new (s : OutputStream)
  /-- The warning that names the input file. -/
  | warning (file_path_in : fs_path)
  deriving DecidableEq, Repr

/-- Whether the n-th call of the run throws, and what. -/
abbrev Oracle := Nat → Call → Option Exn

/-- The static map `output_streams`, in key order, and the calls made so far with their
outcomes. -/
structure State where
  output_streams : List (vrt_packet × OutputStream)
  trace : List (Call × Option Exn)
  deriving DecidableEq, Repr

/-- Make a call: record it with its outcome. -/
def perform (ω : Oracle) (c : Call) (st : State) : Option Exn × State :=
  (ω st.trace.length c, { st with trace := st.trace ++ [(c, ω st.trace.length c)] })

/-- A handler `catch (const fs::filesystem_error&) {}` around a call. -/
def swallow_filesystem_error : Option Exn → Option Exn
  | some .filesystem_error => none
  | r => r

/-! ## `std::map` with a comparator -/

/-- `find`: the element whose key is equivalent to `k`, neither less than the other. -/
def map_find (comp : vrt_packet → vrt_packet → Bool) (m : List (vrt_packet × OutputStream))
    (k : vrt_packet) : Option (vrt_packet × OutputStream) :=
  m.find? (fun el => !comp el.1 k && !comp k el.1)

/-- `emplace`: insert at the position the order gives unless an equivalent key is met;
returns the map and the element the returned iterator points to. -/
def map_emplace (comp : vrt_packet → vrt_packet → Bool) (k : vrt_packet) (s : OutputStream) :
    List (vrt_packet × OutputStream) →
      List (vrt_packet × OutputStream) × (vrt_packet × OutputStream)
  | [] => ([(k, s)], (k, s))
  | el :: m =>
    if comp el.1 k then ((el :: (map_emplace comp k s m).1), (map_emplace comp k s m).2)
    else if comp k el.1 then ((k, s) :: el :: m, (k, s))
    else (el :: m, el)

/-! ## `signal_handler` -/

/-- The loop of lines 122-128: `remove_temporary` on every stream. -/
def remove_temporary_loop (ω : Oracle) :
    List (vrt_packet × OutputStream) → State → Option Exn × State
  | [], st => (none, st)
  | el :: rest, st =>
    let r := perform ω (.remove_temporary el.2) st
    match swallow_filesystem_error r.1 with
    | some e => (some e, r.2)
    | none => remove_temporary_loop ω rest r.2

/-- The loop of lines 144-147: compute the final path of every stream and rename it. -/
def rename_loop (ω : Oracle) (file_path_in : fs_path) (packet_diffs : PacketIdDiffs) :
    List (vrt_packet × OutputStream) → State → Option Exn × State
  | [], st => (none, st)
  | el :: rest, st =>
    let file_out := final_file_path file_path_in el.1 packet_diffs
    let r := perform ω (.rename el.2 file_out) st
    match r.1 with
    | some e => (some e, r.2)
    | none => rename_loop ω file_path_in packet_diffs rest r.2

/-- The loop of lines 150-156: `remove_new` on every stream. -/
def remove_new_loop (ω : Oracle) :
    List (vrt_packet × OutputStream) → State → Option Exn × State
  | [], st => (none, st)
  | el :: rest, st =>
    let r := perform ω (.remove_new el.2) st
    match swallow_filesystem_error r.1 with
    | some e => (some e, r.2)
    | none => remove_new_loop ω rest r.2

/-- `finish`; `pid` stands for `packet_id_differences`. Returns the exception that leaves
the function, if any. -/
def finish (ω : Oracle) (pid : List vrt_packet → PacketIdDiffs) (file_path_in : fs_path)
    (st : State) : Option Exn × State :=
  if st.output_streams.length ≤ 1 then
    match remove_temporary_loop ω st.output_streams st with
    | (some e, st1) => (some e, st1)
    | (none, st1) => (none, { st1 with trace := st1.trace ++ [(.warning file_path_in, none)] })
  else
    let v := st.output_streams.map (fun el => el.1)
    let packet_diffs := pid v
    match rename_loop ω file_path_in packet_diffs st.output_streams st with
    | (none, st1) => (none, st1)
    | (some e, st1) =>
      match remove_new_loop ω st.output_streams st1 with
      | (some e2, st2) => (some e2, st2)
      | (none, st2) => (some e, st2)

/-! ## `process` -/

/-- What `read_next` gives: a packet with its data buffer, or an exception. The end of the
list is the end of the input. -/
inductive ReadResult
  | packet (p : vrt_packet) (data : List Nat)
  | error (e : Exn)
  deriving DecidableEq, Repr

/-- The body of the read loop for one packet (lines 187-196). -/
def read_packet (comp : vrt_packet → vrt_packet → Bool) (ω : Oracle) (file_path_in : fs_path)
    (p : vrt_packet) (data : List Nat) (st : State) : Option Exn × State :=
  match map_find comp st.output_streams p with
  | some it => perform ω (.write it.2 p.header data) st
  | none =>
    let s : OutputStream := ⟨file_path_in, p⟩
    let r := perform ω (.construct s) st
    match r.1 with
    | some e => (some e, r.2)
    | none =>
      let pair := map_emplace comp p s r.2.output_streams
      perform ω (.write pair.2.2 p.header data) { r.2 with output_streams := pair.1 }

/-- The read loop (lines 182-203). -/
def read_loop (comp : vrt_packet → vrt_packet → Bool) (ω : Oracle) (file_path_in : fs_path) :
    List ReadResult → State → Option Exn × State
  | [], st => (none, st)
  | .error e :: _, st => (some e, st)
  | .packet p data :: rest, st =>
    match read_packet comp ω file_path_in p data st with
    | (some e, st1) => (some e, st1)
    | (none, st1) => read_loop comp ω file_path_in rest st1

/-- `process`: clear the map, run the read loop, then `finish`. -/
def process (comp : vrt_packet → vrt_packet → Bool) (ω : Oracle)
    (pid : List vrt_packet → PacketIdDiffs) (file_path_in : fs_path)
    (input : List ReadResult) : Option Exn × State :=
  match read_loop comp ω file_path_in input ⟨[], []⟩ with
  | (some e, st) => (some e, st)
  | (none, st) => finish ω pid file_path_in st

/-! ## Reading a trace -/

/-- The calls of a trace, without their outcomes. -/
def calls (t : List (Call × Option Exn)) : List Call := t.map (fun c => c.1)

/-- The `(header, data)` pairs written to stream `s`, in call order. -/
def writes_to (s : OutputStream) (t : List (Call × Option Exn)) :
    List (vrt_header × List Nat) :=
  t.filterMap (fun c =>
    match c.1 with
    | .write s1 h d => if s1 = s then some (h, d) else none
    | _ => none)

/-- The renames of a trace: the identity of the stream and the path it is renamed to. -/
def renames (t : List (Call × Option Exn)) : List (PacketIdentity × fs_path) :=
  t.filterMap (fun c =>
    match c.1 with
    | .rename s file_out => some (identity s.packet, file_out)
    | _ => none)

/-- Whether a call is a `remove_temporary` or a `remove_new`. -/
def Call.is_removal : Call → Bool
  | .remove_temporary _ => true
  | .remove_new _ => true
  | _ => false

/-- The paths a trace writes to, renames or deletes, given the temporary path of every
stream: a constructor, a write and `remove_temporary` touch the temporary file, a rename
the temporary file and its target, `remove_new` the paths the stream was renamed to. -/
def touched_paths (temporary_path : OutputStream → fs_path) (t : List (Call × Option Exn)) :
    List fs_path :=
  t.flatMap (fun c =>
    match c.1 with
    | .construct s => [temporary_path s]
    | .write s _ _ => [temporary_path s]
    | .remove_temporary s => [temporary_path s]
    | .rename s file_out => [temporary_path s, file_out]
    | .remove_new s =>
      t.filterMap (fun c1 =>
        match c1.1 with
        | .rename s1 file_out => if s1 = s then some file_out else none
        | _ => none)
    | .warning _ => [])

/-- The input of a run in which every read succeeds. -/
def packets_read (l : List (vrt_packet × List Nat)) : List ReadResult :=
  l.map (fun pd => .packet pd.1 pd.2)

/-- The tokens of `body`, each of which is written after an underscore: for the class
identifier the flagged fields in hexadecimal or three `X`, for the stream identifier the
value in hexadecimal (nothing when it does not differ) or `X`. -/
def body_tokens (packet : vrt_packet) (diffs : PacketIdDiffs) : List (List Char) :=
  (if diffs.any_has_class_id then
    if packet.header.has_class_id then
      (if diffs.diff_oui then [hex_upper packet.fields.class_id.oui] else []) ++
      (if diffs.diff_icc then [hex_upper packet.fields.class_id.information_class_code]
        else []) ++
      (if diffs.diff_pcc then [hex_upper packet.fields.class_id.packet_class_code] else [])
    else [['X'], ['X'], ['X']]
  else []) ++
  (if diffs.any_has_stream_id then
    [if vrt_has_stream_id packet.header then
      (if diffs.diff_sid then hex_upper packet.fields.stream_id else [])
    else ['X']]
  else [])

/-! ## Example inputs -/

/-- An IF data packet of size 7 with the given presence flags and field values. -/
def data_packet (has_class_id has_stream_id : Bool) (oui icc pcc stream_id : Nat) :
    vrt_packet :=
  { header :=
      { packet_type :=
          if has_stream_id then .VRT_PT_IF_DATA_WITH_STREAM_ID
          else .VRT_PT_IF_DATA_WITHOUT_STREAM_ID
        has_class_id := has_class_id
        packet_size := 7 }
    fields := { stream_id := stream_id, class_id := ⟨oui, icc, pcc⟩ } }

/-- A run in which no call throws. -/
def no_failure : Oracle := fun _ _ => none

/-- A packet with stream identifier `v` and no class identifier. -/
def stream_packet (v : Nat) : vrt_packet := data_packet false true 0 0 0 v

/-- A packet with the given class identifier and no stream identifier. -/
def class_packet (oui icc pcc : Nat) : vrt_packet := data_packet true false oui icc pcc 0

/-- The flags when only stream identifiers are present and they differ. -/
def stream_diffs : PacketIdDiffs := ⟨false, false, false, false, true, true⟩

/-! ## Statements about runs -/

/-- The `(header, data)` pairs written to streams whose packet has identity `k`, in call
order. -/
def writes_of_identity (k : PacketIdentity) (t : List (Call × Option Exn)) :
    List (vrt_header × List Nat) :=
  t.filterMap (fun c =>
    match c.1 with
    | .write s h d => if identity s.packet = k then some (h, d) else none
    | _ => none)

/-- Whether a call is a constructor call or a write. -/
def Call.is_read_loop_call : Call → Bool
  | .construct _ => true
  | .write _ _ _ => true
  | _ => false

/-- No constructor call and no write throws. -/
def reads_succeed (ω : Oracle) : Prop :=
  ∀ n c, c.is_read_loop_call = true → ω n c = none

/-- A removal throws nothing but a `filesystem_error`. -/
def removals_throw_filesystem_errors (ω : Oracle) : Prop :=
  ∀ n c, c.is_removal = true → ω n c ≠ some .other

/-- The invariant of the read loop: every stream was constructed from the input path and its
key, the keys are in comparator order, every write went to a registered stream, every stream
constructed is registered, and only constructor calls and writes were made. -/
structure RegInv (comp : vrt_packet → vrt_packet → Bool) (file_path_in : fs_path)
    (st : State) : Prop where
  streams : ∀ el ∈ st.output_streams, el.2 = ⟨file_path_in, el.1⟩
  sorted : st.output_streams.Pairwise (fun a b => comp a.1 b.1 = true)
  written : ∀ c ∈ st.trace, ∀ s h d, c.1 = .write s h d →
    ∃ el ∈ st.output_streams, el.2 = s
  constructed : ∀ c ∈ st.trace, ∀ s, c.1 = .construct s →
    ∃ el ∈ st.output_streams, el.2 = s
  read_calls : ∀ c ∈ st.trace, c.1.is_read_loop_call = true

/-- Whether a call touches nothing but the temporary file of its stream: a constructor call,
a write, `remove_temporary`, and the warning, which touches no file. -/
def Call.touches_only_temporary : Call → Bool
  | .construct _ => true
  | .write _ _ _ => true
  | .remove_temporary _ => true
  | .warning _ => true
  | _ => false

/-- The streams whose constructor returned normally, in construction order. -/
def created_streams (t : List (Call × Option Exn)) : List OutputStream :=
  t.filterMap (fun c =>
    match c with
    | (.construct s, none) => some s
    | _ => none)

/-- Every stream created so far is in the map. -/
def all_created_registered (st : State) : Prop :=
  ∀ s ∈ created_streams st.trace, ∃ el ∈ st.output_streams, el.2 = s

/-- Whether a call is a constructor call. -/
def Call.is_construct : Call → Bool
  | .construct _ => true
  | _ => false

/-- A run in which exactly the n-th call (counting from 0) throws `e`. -/
def fail_at (n : Nat) (e : Exn) : Oracle := fun m _ => if m = n then some e else none

/-- The input of the stream-identifier scenario with two packets: stream identifiers 0 and
1, data `[10]` and `[11]`. -/
def two_streams : List (vrt_packet × List Nat) :=
  [(stream_packet 0, [10]), (stream_packet 1, [11])]

/-- The output stream `process` creates for a packet of `split.vrt`. -/
def stream_of (p : vrt_packet) : OutputStream := ⟨"split.vrt".toList, p⟩

/-- A run in which every removal throws a filesystem error and nothing else throws. -/
def fail_removals : Oracle :=
  fun _ c => if c.is_removal then some .filesystem_error else none

/-- A temporary path for the examples: the input path with `.tmp` appended. -/
def example_temporary_path (s : OutputStream) : fs_path := s.file_path_in ++ ".tmp".toList

/-- The state the read loop reaches after the packets `l` when nothing throws. -/
def state_after (comp : vrt_packet → vrt_packet → Bool) (file_path_in : fs_path)
    (l : List (vrt_packet × List Nat)) : State :=
  (read_loop comp no_failure file_path_in (packets_read l) ⟨[], []⟩).2

theorem hex_upper_aux_eq (n : Nat) : ∀ (fuel : Nat) (acc : List Char), n < fuel →
    hex_upper_aux fuel n acc = hex_upper n ++ acc := by
  induction n using Nat.strong_induction_on with
  | _ n ih =>
    intro fuel acc hlt
    obtain ⟨f, rfl⟩ : ∃ f, fuel = f + 1 := ⟨fuel - 1, by omega⟩
    by_cases h16 : n < 16
    · simp [hex_upper, hex_upper_aux, h16]
    · have hdiv : n / 16 < n := Nat.div_lt_self (by omega) (by norm_num)
      have h1 := ih (n / 16) hdiv f (hex_digit (n % 16) :: acc) (by omega)
      have h2 := ih (n / 16) hdiv n [hex_digit (n % 16)] hdiv
      simp only [hex_upper_aux, h16, if_false, h1]
      rw [show hex_upper n = hex_upper_aux n (n / 16) [hex_digit (n % 16)] by
        simp [hex_upper, hex_upper_aux, h16], h2]
      simp

theorem hex_upper_lt (n : Nat) (h : n < 16) : hex_upper n = [hex_digit n] := by
  simp [hex_upper, hex_upper_aux, h]

theorem hex_upper_ge (n : Nat) (h : ¬ n < 16) :
    hex_upper n = hex_upper (n / 16) ++ [hex_digit (n % 16)] := by
  have hdiv : n / 16 < n := Nat.div_lt_self (by omega) (by norm_num)
  rw [show hex_upper n = hex_upper_aux n (n / 16) [hex_digit (n % 16)] by
    simp [hex_upper, hex_upper_aux, h]]
  exact hex_upper_aux_eq _ _ _ hdiv

theorem hex_digit_mem (d : Nat) (h : d < 16) : hex_digit d ∈ hex_digits := by
  interval_cases d <;> decide

theorem hex_digit_value_digit (d : Nat) (h : d < 16) : hex_digit_value (hex_digit d) = d := by
  interval_cases d <;> decide

theorem hex_digit_zero (d : Nat) (h : d < 16) (h0 : hex_digit d = '0') : d = 0 := by
  have := hex_digit_value_digit d h
  rw [h0] at this
  rw [← this]; decide

theorem hex_upper_ne_nil (n : Nat) : hex_upper n ≠ [] := by
  by_cases h : n < 16
  · simp [hex_upper_lt n h]
  · simp [hex_upper_ge n h]

theorem hex_upper_mem (n : Nat) : ∀ c ∈ hex_upper n, c ∈ hex_digits := by
  induction n using Nat.strong_induction_on with
  | _ n ih =>
    intro c hc
    by_cases h : n < 16
    · rw [hex_upper_lt n h] at hc
      simp at hc; subst hc; exact hex_digit_mem n h
    · rw [hex_upper_ge n h] at hc
      rcases List.mem_append.1 hc with hc | hc
      · exact ih (n / 16) (Nat.div_lt_self (by omega) (by norm_num)) c hc
      · simp at hc; subst hc; exact hex_digit_mem _ (Nat.mod_lt _ (by norm_num))

theorem hex_value_hex_upper (n : Nat) : hex_value (hex_upper n) = n := by
  induction n using Nat.strong_induction_on with
  | _ n ih =>
    by_cases h : n < 16
    · rw [hex_upper_lt n h]
      simp [hex_value, hex_digit_value_digit n h]
    · rw [hex_upper_ge n h]
      have := ih (n / 16) (Nat.div_lt_self (by omega) (by norm_num))
      unfold hex_value at this ⊢
      rw [List.foldl_append, this]
      simp [hex_digit_value_digit _ (Nat.mod_lt n (by norm_num : 0 < 16))]
      omega

theorem hex_upper_injective {n m : Nat} (h : hex_upper n = hex_upper m) : n = m := by
  rw [← hex_value_hex_upper n, ← hex_value_hex_upper m, h]

theorem hex_upper_head_zero (n : Nat) : (hex_upper n).head? = some '0' → n = 0 := by
  induction n using Nat.strong_induction_on with
  | _ n ih =>
    intro hz
    by_cases h : n < 16
    · rw [hex_upper_lt n h] at hz
      simp at hz
      exact hex_digit_zero n h hz
    · rw [hex_upper_ge n h] at hz
      have hne := hex_upper_ne_nil (n / 16)
      rw [List.head?_append_of_ne_nil _ hne] at hz
      have := ih (n / 16) (Nat.div_lt_self (by omega) (by norm_num)) hz
      omega


/-! ## Paths -/

theorem takeWhile_ne_not_mem (c : Char) (l : List Char) :
    c ∉ l.takeWhile (fun x => x != c) := by
  intro h
  have := List.mem_takeWhile_imp h
  simp at this

theorem filename_no_sep (p : fs_path) : sep ∉ filename p := by
  unfold filename
  rw [List.mem_reverse]
  exact takeWhile_ne_not_mem sep _

theorem stem_append_extension (p : fs_path) : stem p ++ extension p = filename p := by
  unfold stem extension
  cases extension_pos (filename p) <;> simp

theorem stem_no_sep (p : fs_path) : sep ∉ stem p := by
  intro h
  apply filename_no_sep p
  rw [← stem_append_extension]
  exact List.mem_append_left _ h

theorem extension_no_sep (p : fs_path) : sep ∉ extension p := by
  intro h
  apply filename_no_sep p
  rw [← stem_append_extension]
  exact List.mem_append_right _ h

theorem stem_not_absolute (p : fs_path) : (stem p).head? ≠ some sep := by
  intro h
  apply stem_no_sep p
  cases hs : stem p with
  | nil => rw [hs] at h; simp at h
  | cons c cs => rw [hs] at h; simp at h; simp [h]

/-- Appending characters to the right operand of `/=` is appending them to the result, when
neither the right operand nor the appended text starts with a separator. -/
theorem path_append_append (d s t : fs_path) (hs : s.head? ≠ some sep)
    (ht : t.head? ≠ some sep) : path_append d (s ++ t) = path_append d s ++ t := by
  unfold path_append
  have hst : (s ++ t).head? ≠ some sep := by
    cases s with
    | nil => simpa using ht
    | cons c cs => simpa using hs
  by_cases hd : d = []
  · simp [hd]
  · by_cases hl : d.getLast? = some sep
    · rw [if_neg (not_or.mpr ⟨hst, hd⟩), if_neg (not_or.mpr ⟨hs, hd⟩), if_pos hl,
        if_pos hl]
      simp
    · rw [if_neg (not_or.mpr ⟨hst, hd⟩), if_neg (not_or.mpr ⟨hs, hd⟩), if_neg hl,
        if_neg hl]
      simp

/-! ## C1-C3: the suffix `final_file_path` inserts -/

theorem class_id_suffix_eq (c : vrt_class_id) (diffs : PacketIdDiffs) :
    class_id_suffix c diffs =
      (if diffs.diff_oui then '_' :: hex_upper c.oui else []) ++
      (if diffs.diff_icc then '_' :: hex_upper c.information_class_code else []) ++
      (if diffs.diff_pcc then '_' :: hex_upper c.packet_class_code else []) := by
  unfold class_id_suffix
  cases diffs.diff_oui <;> cases diffs.diff_icc <;> cases diffs.diff_pcc <;> simp

/-- C1: with no class identifier anywhere, some stream identifier and differing stream
identifiers, a packet that carries stream identifier `v` is named
`dir / (stem ++ "_" ++ H(v) ++ ext)`, where `H(v)` consists of uppercase hexadecimal digits,
reads back as `v` and has no leading zero (it is `0` only for `v = 0`); for
`test_tmp/split.vrt` and the stream identifiers 0 to 3 the names are
`test_tmp/split_0.vrt` to `test_tmp/split_3.vrt`. -/
theorem final_file_path_stream_id (file_path_in : fs_path) (packet : vrt_packet)
    (diffs : PacketIdDiffs) (hc : diffs.any_has_class_id = false)
    (hs : diffs.any_has_stream_id = true) (hd : diffs.diff_sid = true)
    (hp : vrt_has_stream_id packet.header = true) :
    final_file_path file_path_in packet diffs =
        path_append (parent_path file_path_in)
          (stem file_path_in ++ '_' :: hex_upper packet.fields.stream_id ++
            extension file_path_in) ∧
      final_file_path file_path_in packet diffs =
        path_append (parent_path file_path_in) (stem file_path_in) ++
          '_' :: hex_upper packet.fields.stream_id ++ extension file_path_in ∧
      hex_value (hex_upper packet.fields.stream_id) = packet.fields.stream_id ∧
      (∀ c ∈ hex_upper packet.fields.stream_id, c ∈ hex_digits) ∧
      hex_upper packet.fields.stream_id ≠ [] ∧
      ((hex_upper packet.fields.stream_id).head? = some '0' → packet.fields.stream_id = 0) ∧
      (file_path_in = "test_tmp/split.vrt".toList →
        (packet.fields.stream_id = 0 →
          final_file_path file_path_in packet diffs = "test_tmp/split_0.vrt".toList) ∧
        (packet.fields.stream_id = 1 →
          final_file_path file_path_in packet diffs = "test_tmp/split_1.vrt".toList) ∧
        (packet.fields.stream_id = 2 →
          final_file_path file_path_in packet diffs = "test_tmp/split_2.vrt".toList) ∧
        (packet.fields.stream_id = 3 →
          final_file_path file_path_in packet diffs = "test_tmp/split_3.vrt".toList)) := by
  have hbody : body packet diffs = '_' :: hex_upper packet.fields.stream_id := by
    simp [body, body_class_id, body_stream_id, hc, hs, hd, hp]
  have hmain : final_file_path file_path_in packet diffs =
      path_append (parent_path file_path_in) (stem file_path_in) ++
        '_' :: hex_upper packet.fields.stream_id ++ extension file_path_in := by
    simp [final_file_path, hbody]
  refine ⟨?_, hmain, hex_value_hex_upper _, hex_upper_mem _, hex_upper_ne_nil _,
    hex_upper_head_zero _, ?_⟩
  · rw [hmain]
    have h := path_append_append (parent_path file_path_in) (stem file_path_in)
      ('_' :: hex_upper packet.fields.stream_id ++ extension file_path_in)
      (stem_not_absolute _) (by simp [sep])
    simp only [List.append_assoc] at h ⊢
    exact h.symm
  · intro hin
    have hdir : path_append (parent_path file_path_in) (stem file_path_in) =
        "test_tmp/split".toList := by subst hin; decide
    have hext : extension file_path_in = ".vrt".toList := by subst hin; decide
    rw [hmain, hdir, hext]
    refine ⟨fun h => ?_, fun h => ?_, fun h => ?_, fun h => ?_⟩ <;> rw [h] <;> decide

theorem final_file_path_stream_id_witness :
    final_file_path "test_tmp/split.vrt".toList (stream_packet 2) stream_diffs =
      "test_tmp/split_2.vrt".toList :=
  ((final_file_path_stream_id "test_tmp/split.vrt".toList (stream_packet 2) stream_diffs
    rfl rfl rfl rfl).2.2.2.2.2.2 rfl).2.2.1 rfl

/-- C2: with some class identifier and no stream identifier anywhere, the suffix between
stem and extension is `_X_X_X` for a packet without class identifier, and otherwise the
concatenation, in the order OUI, information class code, packet class code, of an underscore
and the uppercase hexadecimal value of every field whose flag is set. -/
theorem final_file_path_class_id (file_path_in : fs_path) (packet : vrt_packet)
    (diffs : PacketIdDiffs) (hc : diffs.any_has_class_id = true)
    (hs : diffs.any_has_stream_id = false) :
    (packet.header.has_class_id = false →
      final_file_path file_path_in packet diffs =
        path_append (parent_path file_path_in) (stem file_path_in) ++ "_X_X_X".toList ++
          extension file_path_in) ∧
    (packet.header.has_class_id = true →
      final_file_path file_path_in packet diffs =
        path_append (parent_path file_path_in) (stem file_path_in) ++
          class_id_suffix packet.fields.class_id diffs ++ extension file_path_in) := by
  constructor
  · intro h
    simp [final_file_path, body, body_class_id, body_stream_id, hc, hs, h]
  · intro h
    simp [final_file_path, body, body_class_id, body_stream_id, hc, hs, h, class_id_suffix_eq]

theorem final_file_path_class_id_witness :
    final_file_path "test_tmp/split.vrt".toList (data_packet false false 1 1 1 0)
        ⟨true, true, true, true, false, false⟩ = "test_tmp/split_X_X_X.vrt".toList ∧
      final_file_path "test_tmp/split.vrt".toList (class_packet 0xDEDEDE 0xBEBE 0xABAB)
        ⟨true, true, false, true, false, false⟩ = "test_tmp/split_DEDEDE_ABAB.vrt".toList :=
  ⟨by
    rw [(final_file_path_class_id "test_tmp/split.vrt".toList (data_packet false false 1 1 1 0)
      ⟨true, true, true, true, false, false⟩ rfl rfl).1 rfl]
    decide,
  by
    rw [(final_file_path_class_id "test_tmp/split.vrt".toList
      (class_packet 0xDEDEDE 0xBEBE 0xABAB) ⟨true, true, false, true, false, false⟩
      rfl rfl).2 rfl]
    decide⟩

/-- C3: the code at a failing input. Two identities with class identifiers of OUI 1 and 2
and the same stream identifier 5: the stream identifier is present and does not differ, and
the names get a trailing underscore, `split_1_.vrt` and `split_2_.vrt`, where the names
without the stream-identifier group are `split_1.vrt` and `split_2.vrt`. -/
theorem final_file_path_trailing_underscore :
    packet_id_differences [data_packet true true 1 0 0 5, data_packet true true 2 0 0 5] =
        ⟨true, true, false, false, true, false⟩ ∧
      final_file_path "split.vrt".toList (data_packet true true 1 0 0 5)
        ⟨true, true, false, false, true, false⟩ = "split_1_.vrt".toList ∧
      final_file_path "split.vrt".toList (data_packet true true 1 0 0 5)
        ⟨true, true, false, false, false, false⟩ = "split_1.vrt".toList ∧
      renames (process ComparatorId no_failure packet_id_differences "split.vrt".toList
        (packets_read [(data_packet true true 1 0 0 5, []),
          (data_packet true true 2 0 0 5, [])])).2.trace =
        [(identity (data_packet true true 1 0 0 5), "split_1_.vrt".toList),
          (identity (data_packet true true 2 0 0 5), "split_2_.vrt".toList)] := by
  refine ⟨by decide, by decide, by decide, by decide⟩

/-! ## C10: the final paths of distinct identities are distinct -/

theorem underscore_not_hex (n : Nat) : '_' ∉ hex_upper n := by
  intro h
  have := hex_upper_mem n _ h
  revert this; decide

theorem sep_not_hex (n : Nat) : sep ∉ hex_upper n := by
  intro h
  have := hex_upper_mem n _ h
  revert this; decide

theorem hex_upper_ne_X (n : Nat) : hex_upper n ≠ ['X'] := by
  intro h
  have := hex_upper_mem n 'X' (by rw [h]; simp)
  revert this; decide

/-- A token without underscore followed by the rest of the name is read back uniquely. -/
theorem token_cancel : ∀ (t1 t2 r1 r2 : List Char), '_' ∉ t1 → '_' ∉ t2 →
    (r1 = [] ∨ r1.head? = some '_') → (r2 = [] ∨ r2.head? = some '_') →
    t1 ++ r1 = t2 ++ r2 → t1 = t2 ∧ r1 = r2
  | [], [], _, _, _, _, _, _, h => ⟨rfl, by simpa using h⟩
  | [], c :: t2, r1, r2, _, h2, hr1, _, h => by
    exfalso
    simp only [List.nil_append, List.cons_append] at h
    rcases hr1 with hr1 | hr1
    · rw [hr1] at h; simp at h
    · rw [h] at hr1; simp at hr1; exact h2 (by simp [hr1])
  | c :: t1, [], r1, r2, h1, _, _, hr2, h => by
    exfalso
    simp only [List.nil_append, List.cons_append] at h
    rcases hr2 with hr2 | hr2
    · rw [hr2] at h; simp at h
    · rw [← h] at hr2; simp at hr2; exact h1 (by simp [hr2])
  | c :: t1, d :: t2, r1, r2, h1, h2, hr1, hr2, h => by
    simp only [List.cons_append, List.cons.injEq] at h
    have ih := token_cancel t1 t2 r1 r2 (fun hm => h1 (List.mem_cons_of_mem _ hm))
      (fun hm => h2 (List.mem_cons_of_mem _ hm)) hr1 hr2 h.2
    exact ⟨by rw [h.1, ih.1], ih.2⟩

theorem tokens_flatten_tail (l : List (List Char)) :
    (l.map (fun t => '_' :: t)).flatten = [] ∨
      ((l.map (fun t => '_' :: t)).flatten).head? = some '_' := by
  cases l with
  | nil => left; rfl
  | cons t l => right; simp

/-- The underscore-joined name determines its tokens. -/
theorem tokens_flatten_injective : ∀ (l1 l2 : List (List Char)),
    (∀ t ∈ l1, '_' ∉ t) → (∀ t ∈ l2, '_' ∉ t) →
    (l1.map (fun t => '_' :: t)).flatten = (l2.map (fun t => '_' :: t)).flatten → l1 = l2
  | [], [], _, _, _ => rfl
  | [], t :: l2, _, _, h => by simp at h
  | t :: l1, [], _, _, h => by simp at h
  | t1 :: l1, t2 :: l2, h1, h2, h => by
    simp only [List.map_cons, List.flatten_cons, List.cons_append, List.cons.injEq,
      true_and] at h
    have hc := token_cancel t1 t2 _ _ (h1 t1 (List.mem_cons_self _ _))
      (h2 t2 (List.mem_cons_self _ _)) (tokens_flatten_tail l1) (tokens_flatten_tail l2) h
    have ih := tokens_flatten_injective l1 l2 (fun t ht => h1 t (List.mem_cons_of_mem _ ht))
      (fun t ht => h2 t (List.mem_cons_of_mem _ ht)) hc.2
    rw [hc.1, ih]

theorem body_eq_tokens (packet : vrt_packet) (diffs : PacketIdDiffs) :
    body packet diffs = ((body_tokens packet diffs).map (fun t => '_' :: t)).flatten := by
  unfold body body_class_id body_stream_id body_tokens
  cases diffs.any_has_class_id <;> cases packet.header.has_class_id <;>
    cases diffs.diff_oui <;> cases diffs.diff_icc <;> cases diffs.diff_pcc <;>
    cases diffs.any_has_stream_id <;> cases vrt_has_stream_id packet.header <;>
    cases diffs.diff_sid <;> simp

theorem body_tokens_no_underscore (packet : vrt_packet) (diffs : PacketIdDiffs) :
    ∀ t ∈ body_tokens packet diffs, '_' ∉ t := by
  intro t ht
  unfold body_tokens at ht
  have hX : '_' ∉ ['X'] := by decide
  have hN : '_' ∉ ([] : List Char) := by simp
  rcases List.mem_append.1 ht with ht | ht
  · split at ht
    · split at ht
      · rcases List.mem_append.1 ht with ht | ht
        · rcases List.mem_append.1 ht with ht | ht
          · split at ht
            · simp at ht; subst ht; exact underscore_not_hex _
            · simp at ht
          · split at ht
            · simp at ht; subst ht; exact underscore_not_hex _
            · simp at ht
        · split at ht
          · simp at ht; subst ht; exact underscore_not_hex _
          · simp at ht
      · simp at ht; subst ht; exact hX
    · simp at ht
  · split at ht
    · simp at ht; subst ht
      split
      · split
        · exact underscore_not_hex _
        · exact hN
      · exact hX
    · simp at ht

theorem body_tokens_no_sep (packet : vrt_packet) (diffs : PacketIdDiffs) :
    ∀ t ∈ body_tokens packet diffs, sep ∉ t := by
  intro t ht
  unfold body_tokens at ht
  have hX : sep ∉ ['X'] := by decide
  have hN : sep ∉ ([] : List Char) := by simp
  rcases List.mem_append.1 ht with ht | ht
  · split at ht
    · split at ht
      · rcases List.mem_append.1 ht with ht | ht
        · rcases List.mem_append.1 ht with ht | ht
          · split at ht
            · simp at ht; subst ht; exact sep_not_hex _
            · simp at ht
          · split at ht
            · simp at ht; subst ht; exact sep_not_hex _
            · simp at ht
        · split at ht
          · simp at ht; subst ht; exact sep_not_hex _
          · simp at ht
      · simp at ht; subst ht; exact hX
    · simp at ht
  · split at ht
    · simp at ht; subst ht
      split
      · split
        · exact sep_not_hex _
        · exact hN
      · exact hX
    · simp at ht

theorem body_no_sep (packet : vrt_packet) (diffs : PacketIdDiffs) : sep ∉ body packet diffs := by
  rw [body_eq_tokens]
  intro h
  rw [List.mem_flatten] at h
  obtain ⟨l, hl, hm⟩ := h
  rw [List.mem_map] at hl
  obtain ⟨t, ht, rfl⟩ := hl
  rcases List.mem_cons.1 hm with hm | hm
  · revert hm; decide
  · exact body_tokens_no_sep packet diffs t ht hm

theorem hex_upper_inj_iff (n m : Nat) : hex_upper n = hex_upper m ↔ n = m :=
  ⟨hex_upper_injective, fun h => by rw [h]⟩

theorem flagged_tokens_eq (f1 f2 f3 : Bool) (x y z x1 y1 z1 : List Char)
    (h : (if f1 then [x] else []) ++ (if f2 then [y] else []) ++ (if f3 then [z] else []) =
      (if f1 then [x1] else []) ++ (if f2 then [y1] else []) ++ (if f3 then [z1] else [])) :
    (f1 = true → x = x1) ∧ (f2 = true → y = y1) ∧ (f3 = true → z = z1) := by
  cases f1 <;> cases f2 <;> cases f3 <;> simp_all

theorem class_tokens_identity (a hp hq f1 f2 f3 : Bool) (o i c o1 i1 c1 : Nat)
    (ap : hp = true → a = true) (aq : hq = true → a = true)
    (hv : hp ≠ hq → f1 = true ∧ f2 = true ∧ f3 = true)
    (ho : hp = true → hq = true → o ≠ o1 → f1 = true)
    (hi : hp = true → hq = true → i ≠ i1 → f2 = true)
    (hc : hp = true → hq = true → c ≠ c1 → f3 = true)
    (h : (if a then
          if hp then
            (if f1 then [hex_upper o] else []) ++ (if f2 then [hex_upper i] else []) ++
              (if f3 then [hex_upper c] else [])
          else [['X'], ['X'], ['X']]
        else []) =
        (if a then
          if hq then
            (if f1 then [hex_upper o1] else []) ++ (if f2 then [hex_upper i1] else []) ++
              (if f3 then [hex_upper c1] else [])
          else [['X'], ['X'], ['X']]
        else [])) :
    (if hp then some (o, i, c) else none) = (if hq then some (o1, i1, c1) else none) := by
  cases hp <;> cases hq
  · rfl
  · exfalso
    obtain ⟨h1, h2, h3⟩ := hv (by decide)
    have ha := aq rfl
    subst h1 h2 h3 ha
    simp at h
    exact hex_upper_ne_X _ h.1.symm
  · exfalso
    obtain ⟨h1, h2, h3⟩ := hv (by decide)
    have ha := ap rfl
    subst h1 h2 h3 ha
    simp at h
    exact hex_upper_ne_X _ h.1
  · have ha := ap rfl
    subst ha
    simp only [if_true] at h
    obtain ⟨e1, e2, e3⟩ := flagged_tokens_eq f1 f2 f3 _ _ _ _ _ _ h
    have eo : o = o1 := by
      by_contra hne
      exact hne (hex_upper_injective (e1 (ho rfl rfl hne)))
    have ei : i = i1 := by
      by_contra hne
      exact hne (hex_upper_injective (e2 (hi rfl rfl hne)))
    have ec : c = c1 := by
      by_contra hne
      exact hne (hex_upper_injective (e3 (hc rfl rfl hne)))
    simp [eo, ei, ec]

theorem stream_tokens_identity (a hp hq f : Bool) (s s1 : Nat)
    (ap : hp = true → a = true) (aq : hq = true → a = true)
    (hv : hp ≠ hq → f = true)
    (hs : hp = true → hq = true → s ≠ s1 → f = true)
    (h : (if a then [if hp then (if f then hex_upper s else []) else ['X']] else []) =
        (if a then [if hq then (if f then hex_upper s1 else []) else ['X']] else [])) :
    (if hp then some s else none) = (if hq then some s1 else none) := by
  have hX := hex_upper_ne_X
  have hX1 : ∀ n, ['X'] ≠ hex_upper n := fun n h => hX n h.symm
  cases a <;> cases hp <;> cases hq <;> cases f <;>
    simp_all [hex_upper_inj_iff]

/-- Under sound flags, two packets of the set with the same `body` have the same identity. -/
theorem body_injective (v : List vrt_packet) (diffs : PacketIdDiffs)
    (hs : sound_flags v diffs) (p q : vrt_packet) (hp : p ∈ v) (hq : q ∈ v)
    (h : body p diffs = body q diffs) : identity p = identity q := by
  rw [body_eq_tokens, body_eq_tokens] at h
  have ht := tokens_flatten_injective _ _ (body_tokens_no_underscore p diffs)
    (body_tokens_no_underscore q diffs) h
  unfold body_tokens at ht
  obtain ⟨hc, hst⟩ := List.append_inj' ht (by split <;> simp)
  have e1 := class_tokens_identity _ _ _ _ _ _ _ _ _ _ _ _
    (fun h1 => hs.any_class.2 ⟨p, hp, h1⟩) (fun h1 => hs.any_class.2 ⟨q, hq, h1⟩)
    (fun h1 => ⟨hs.oui.2 (Or.inl ⟨p, hp, q, hq, h1⟩), hs.icc.2 (Or.inl ⟨p, hp, q, hq, h1⟩),
      hs.pcc.2 (Or.inl ⟨p, hp, q, hq, h1⟩)⟩)
    (fun h1 h2 h3 => hs.oui.2 (Or.inr ⟨p, hp, q, hq, h1, h2, h3⟩))
    (fun h1 h2 h3 => hs.icc.2 (Or.inr ⟨p, hp, q, hq, h1, h2, h3⟩))
    (fun h1 h2 h3 => hs.pcc.2 (Or.inr ⟨p, hp, q, hq, h1, h2, h3⟩)) hc
  have e2 := stream_tokens_identity _ _ _ _ _ _
    (fun h1 => hs.any_stream.2 ⟨p, hp, h1⟩) (fun h1 => hs.any_stream.2 ⟨q, hq, h1⟩)
    (fun h1 => hs.sid.2 (Or.inl ⟨p, hp, q, hq, h1⟩))
    (fun h1 h2 h3 => hs.sid.2 (Or.inr ⟨p, hp, q, hq, h1, h2, h3⟩)) hst
  unfold identity
  rw [e1, e2]

theorem body_tokens_nil (a hp f1 f2 f3 b : Bool) (x y z : List Char)
    (w : List (List Char))
    (h : (if a then
          if hp then
            (if f1 then [x] else []) ++ (if f2 then [y] else []) ++ (if f3 then [z] else [])
          else [['X'], ['X'], ['X']]
        else []) ++ (if b then w else []) = []) (hw : w ≠ []) :
    b = false ∧ (a = false ∨ (hp = true ∧ f1 = false ∧ f2 = false ∧ f3 = false)) := by
  obtain ⟨h1, h2⟩ := List.append_eq_nil.1 h
  constructor
  · cases b
    · rfl
    · simp at h2; exact absurd h2 hw
  · cases a
    · left; rfl
    · right
      cases hp
      · simp at h1
      · cases f1 <;> cases f2 <;> cases f3 <;> simp at h1 ⊢

/-- Under sound flags for at least two distinct identities, every `body` is non-empty. -/
theorem body_ne_nil (v : List vrt_packet) (diffs : PacketIdDiffs)
    (hs : sound_flags v diffs) (hn : (v.map identity).Nodup) (hl : 2 ≤ v.length)
    (p : vrt_packet) (hp : p ∈ v) : body p diffs ≠ [] := by
  intro hb
  -- some other packet of the set has another identity
  obtain ⟨q, hq, hqp⟩ : ∃ q ∈ v, identity q ≠ identity p := by
    match v, hl, hn, hp with
    | a :: b :: rest, _, hn, hp =>
      have hab : identity a ≠ identity b := by
        intro e
        simp only [List.map_cons, List.nodup_cons, List.mem_cons] at hn
        exact hn.1 (Or.inl e)
      by_cases e : identity a = identity p
      · exact ⟨b, by simp, fun e1 => hab (e.trans e1.symm)⟩
      · exact ⟨a, by simp, e⟩
  apply hqp
  rw [body_eq_tokens] at hb
  have ht : body_tokens p diffs = [] := by
    cases hbt : body_tokens p diffs with
    | nil => rfl
    | cons t l => rw [hbt] at hb; simp at hb
  unfold body_tokens at ht
  obtain ⟨hb0, hcl⟩ := body_tokens_nil _ _ _ _ _ _ _ _ _ _ ht (by simp)
  have hsq : vrt_has_stream_id q.header = false := by
    by_contra h1
    rw [Bool.not_eq_false] at h1
    rw [hs.any_stream.2 ⟨q, hq, h1⟩] at hb0
    exact absurd hb0 (by decide)
  have hsp : vrt_has_stream_id p.header = false := by
    by_contra h1
    rw [Bool.not_eq_false] at h1
    rw [hs.any_stream.2 ⟨p, hp, h1⟩] at hb0
    exact absurd hb0 (by decide)
  have hcls : (if q.header.has_class_id then
        some (q.fields.class_id.oui, q.fields.class_id.information_class_code,
          q.fields.class_id.packet_class_code) else none) =
      (if p.header.has_class_id then
        some (p.fields.class_id.oui, p.fields.class_id.information_class_code,
          p.fields.class_id.packet_class_code) else none) := by
    rcases hcl with ha | ⟨hpc, h1, h2, h3⟩
    · have hq0 : q.header.has_class_id = false := by
        by_contra h1
        rw [Bool.not_eq_false] at h1
        rw [hs.any_class.2 ⟨q, hq, h1⟩] at ha
        exact absurd ha (by decide)
      have hp0 : p.header.has_class_id = false := by
        by_contra h1
        rw [Bool.not_eq_false] at h1
        rw [hs.any_class.2 ⟨p, hp, h1⟩] at ha
        exact absurd ha (by decide)
      simp [hq0, hp0]
    · have hqc : q.header.has_class_id = true := by
        by_contra hne
        have := hs.oui.2 (Or.inl ⟨p, hp, q, hq, by rw [hpc]; exact fun e => hne e.symm⟩)
        rw [h1] at this
        exact absurd this (by decide)
      have eo : q.fields.class_id.oui = p.fields.class_id.oui := by
        by_contra hne
        have := hs.oui.2 (Or.inr ⟨q, hq, p, hp, hqc, hpc, hne⟩)
        rw [h1] at this
        exact absurd this (by decide)
      have ei : q.fields.class_id.information_class_code =
          p.fields.class_id.information_class_code := by
        by_contra hne
        have := hs.icc.2 (Or.inr ⟨q, hq, p, hp, hqc, hpc, hne⟩)
        rw [h2] at this
        exact absurd this (by decide)
      have ec : q.fields.class_id.packet_class_code = p.fields.class_id.packet_class_code := by
        by_contra hne
        have := hs.pcc.2 (Or.inr ⟨q, hq, p, hp, hqc, hpc, hne⟩)
        rw [h3] at this
        exact absurd this (by decide)
      simp [hqc, hpc, eo, ei, ec]
  unfold identity
  rw [hcls, hsq, hsp]
  simp

theorem filename_of_no_sep (s : fs_path) (h : sep ∉ s) : filename s = s := by
  unfold filename
  rw [List.takeWhile_eq_self_iff.2, List.reverse_reverse]
  intro c hc
  rw [List.mem_reverse] at hc
  simp only [bne_iff_ne, ne_eq]
  rintro rfl
  exact h hc

theorem filename_append (a t : fs_path) (h : sep ∉ t) : filename (a ++ t) = filename a ++ t := by
  unfold filename
  rw [List.reverse_append, List.takeWhile_append_of_pos, List.reverse_append,
    List.reverse_reverse]
  intro c hc
  rw [List.mem_reverse] at hc
  simp only [bne_iff_ne, ne_eq]
  rintro rfl
  exact h hc

theorem filename_ends_with_sep (d : fs_path) : filename (d ++ [sep]) = [] := by
  unfold filename
  simp [List.takeWhile]

theorem filename_path_append (d s : fs_path) (h : sep ∉ s) : filename (path_append d s) = s := by
  unfold path_append
  split
  · exact filename_of_no_sep s h
  · split
    · rename_i hl
      obtain ⟨d0, rfl⟩ : ∃ d0, d = d0 ++ [sep] := by
        rcases List.eq_nil_or_concat d with hd | ⟨d0, c, hd⟩
        · rw [hd] at hl; simp at hl
        · rw [hd] at hl ⊢
          simp at hl
          exact ⟨d0, by simp [hl]⟩
      rw [filename_append _ _ h, filename_ends_with_sep]
      rfl
    · rw [show d ++ sep :: s = (d ++ [sep]) ++ s by simp, filename_append _ _ h,
        filename_ends_with_sep]
      rfl

/-- The file name of a final path is stem, body and extension. -/
theorem filename_final_file_path (file_path_in : fs_path) (packet : vrt_packet)
    (diffs : PacketIdDiffs) :
    filename (final_file_path file_path_in packet diffs) =
      stem file_path_in ++ body packet diffs ++ extension file_path_in := by
  unfold final_file_path
  rw [List.append_assoc, filename_append, filename_path_append _ _ (stem_no_sep _),
    List.append_assoc]
  intro h
  rcases List.mem_append.1 h with h | h
  · exact body_no_sep _ _ h
  · exact extension_no_sep _ h

/-- For two or more distinct identities and flags that are sound for them, the final paths
are pairwise different, none of them is the input path, and every suffix is non-empty. -/
theorem final_file_paths_distinct (file_path_in : fs_path) (v : List vrt_packet)
    (diffs : PacketIdDiffs) (hn : (v.map identity).Nodup) (hl : 2 ≤ v.length)
    (hs : sound_flags v diffs) :
    (v.map (fun p => final_file_path file_path_in p diffs)).Nodup ∧
      (∀ p ∈ v, ∀ q ∈ v, final_file_path file_path_in p diffs =
        final_file_path file_path_in q diffs → identity p = identity q) ∧
      (∀ p ∈ v, body p diffs ≠ []) ∧
      ∀ p ∈ v, final_file_path file_path_in p diffs ≠ file_path_in := by
  have hinj : ∀ p ∈ v, ∀ q ∈ v, final_file_path file_path_in p diffs =
      final_file_path file_path_in q diffs → identity p = identity q := by
    intro p hp q hq h
    unfold final_file_path at h
    have h1 := List.append_cancel_right h
    rw [List.append_cancel_left_eq] at h1
    exact body_injective v diffs hs p q hp hq h1
  refine ⟨?_, hinj, body_ne_nil v diffs hs hn hl, ?_⟩
  · refine List.Nodup.map_on ?_ (List.Nodup.of_map _ hn)
    intro p hp q hq h
    exact List.inj_on_of_nodup_map hn hp hq (hinj p hp q hq h)
  · intro p hp h
    have h1 := filename_final_file_path file_path_in p diffs
    rw [h, ← stem_append_extension file_path_in, List.append_assoc] at h1
    have h2 := List.append_cancel_left h1
    have h3 : (extension file_path_in).length =
        (body p diffs ++ extension file_path_in).length := by rw [← h2]
    rw [List.length_append] at h3
    have h4 : (body p diffs).length = 0 := by omega
    exact body_ne_nil v diffs hs hn hl p hp (List.length_eq_zero.1 h4)


/-! ## The comparator and the map -/

theorem IdentityOrder.irrefl {comp : vrt_packet → vrt_packet → Bool} (h : IdentityOrder comp)
    (a : vrt_packet) : comp a a = false :=
  ((h.equiv a a).2 rfl).1

theorem IdentityOrder.ne_of_lt {comp : vrt_packet → vrt_packet → Bool}
    (h : IdentityOrder comp) {a b : vrt_packet} (hab : comp a b = true) :
    identity a ≠ identity b := by
  intro e
  have := ((h.equiv a b).2 e).1
  rw [hab] at this
  exact absurd this (by decide)

theorem IdentityOrder.asymm {comp : vrt_packet → vrt_packet → Bool} (h : IdentityOrder comp)
    {a b : vrt_packet} (hab : comp a b = true) : comp b a = false := by
  by_contra hba
  rw [Bool.not_eq_false] at hba
  have := h.trans a b a hab hba
  rw [h.irrefl a] at this
  exact absurd this (by decide)

/-- The comparator does not tell apart packets of the same identity (right argument). -/
theorem IdentityOrder.congr_right {comp : vrt_packet → vrt_packet → Bool}
    (h : IdentityOrder comp) {a b c : vrt_packet} (hab : comp a b = true)
    (e : identity b = identity c) : comp a c = true := by
  by_contra hac
  rw [Bool.not_eq_true] at hac
  have hbc := (h.equiv b c).2 e
  cases hca : comp c a with
  | true =>
    have := h.trans c a b hca hab
    rw [hbc.2] at this
    exact absurd this (by decide)
  | false =>
    have e1 := (h.equiv a c).1 ⟨hac, hca⟩
    exact h.ne_of_lt hab (e1.trans e.symm)

/-- The comparator does not tell apart packets of the same identity (left argument). -/
theorem IdentityOrder.congr_left {comp : vrt_packet → vrt_packet → Bool}
    (h : IdentityOrder comp) {a b c : vrt_packet} (hab : comp a b = true)
    (e : identity a = identity c) : comp c b = true := by
  by_contra hcb
  rw [Bool.not_eq_true] at hcb
  have hac := (h.equiv a c).2 e
  cases hbc : comp b c with
  | true =>
    have := h.trans a b c hab hbc
    rw [hac.1] at this
    exact absurd this (by decide)
  | false =>
    have e1 := (h.equiv c b).1 ⟨hcb, hbc⟩
    exact h.ne_of_lt hab (e.trans e1)

theorem map_find_some {comp : vrt_packet → vrt_packet → Bool} (h : IdentityOrder comp)
    {m : List (vrt_packet × OutputStream)} {k : vrt_packet} {el : vrt_packet × OutputStream}
    (hf : map_find comp m k = some el) : el ∈ m ∧ identity el.1 = identity k := by
  unfold map_find at hf
  refine ⟨List.mem_of_find?_eq_some hf, ?_⟩
  have := List.find?_some hf
  simp only [Bool.and_eq_true, Bool.not_eq_true'] at this
  exact (h.equiv _ _).1 this

theorem map_find_none {comp : vrt_packet → vrt_packet → Bool} (h : IdentityOrder comp)
    {m : List (vrt_packet × OutputStream)} {k : vrt_packet}
    (hf : map_find comp m k = none) : ∀ el ∈ m, identity el.1 ≠ identity k := by
  unfold map_find at hf
  intro el hel e
  have := List.find?_eq_none.1 hf el hel
  have h2 := (h.equiv el.1 k).2 e
  simp [h2.1, h2.2] at this

theorem map_emplace_new {comp : vrt_packet → vrt_packet → Bool} (h : IdentityOrder comp)
    (k : vrt_packet) (s : OutputStream) :
    ∀ (m : List (vrt_packet × OutputStream)), (∀ el ∈ m, identity el.1 ≠ identity k) →
      (map_emplace comp k s m).2 = (k, s) ∧
        (∀ el, el ∈ (map_emplace comp k s m).1 ↔ el = (k, s) ∨ el ∈ m) ∧
        ((m.Pairwise (fun a b => comp a.1 b.1 = true)) →
          ((map_emplace comp k s m).1.Pairwise (fun a b => comp a.1 b.1 = true)))
  | [], _ => by simp [map_emplace]
  | el :: m, hne => by
    have ih := map_emplace_new h k s m (fun x hx => hne x (List.mem_cons_of_mem _ hx))
    unfold map_emplace
    by_cases h1 : comp el.1 k = true
    · rw [if_pos h1]
      refine ⟨ih.1, ?_, ?_⟩
      · intro x
        simp only [List.mem_cons, ih.2.1 x]
        tauto
      · intro hp
        rw [List.pairwise_cons] at hp ⊢
        refine ⟨?_, ih.2.2 hp.2⟩
        intro x hx
        rcases (ih.2.1 x).1 hx with rfl | hx
        · exact h1
        · exact hp.1 x hx
    · by_cases h2 : comp k el.1 = true
      · rw [if_neg h1, if_pos h2]
        refine ⟨rfl, ?_, ?_⟩
        · intro x; simp
        · intro hp
          rw [List.pairwise_cons]
          refine ⟨?_, hp⟩
          intro x hx
          rcases List.mem_cons.1 hx with rfl | hx
          · exact h2
          · exact h.trans _ _ _ h2 ((List.pairwise_cons.1 hp).1 x hx)
      · exfalso
        rw [Bool.not_eq_true] at h1 h2
        exact hne el (List.mem_cons_self _ _) ((h.equiv _ _).1 ⟨h1, h2⟩)

/-! ## The read loop -/

theorem sorted_identity_inj {comp : vrt_packet → vrt_packet → Bool} (hc : IdentityOrder comp)
    {m : List (vrt_packet × OutputStream)}
    (hs : m.Pairwise (fun a b => comp a.1 b.1 = true)) :
    (m.map (fun el => identity el.1)).Nodup := by
  unfold List.Nodup
  rw [List.pairwise_map]
  exact hs.imp (fun h => hc.ne_of_lt h)

theorem writes_of_identity_append (k : PacketIdentity) (t1 t2 : List (Call × Option Exn)) :
    writes_of_identity k (t1 ++ t2) = writes_of_identity k t1 ++ writes_of_identity k t2 := by
  unfold writes_of_identity
  exact List.filterMap_append _ _ _

theorem writes_of_identity_write (k : PacketIdentity) (s : OutputStream) (h : vrt_header)
    (d : List Nat) (r : Option Exn) :
    writes_of_identity k [(.write s h d, r)] =
      if identity s.packet = k then [(h, d)] else [] := by
  unfold writes_of_identity
  by_cases hk : identity s.packet = k <;> simp [List.filterMap, hk]

theorem writes_of_identity_construct (k : PacketIdentity) (s : OutputStream)
    (r : Option Exn) : writes_of_identity k [(.construct s, r)] = [] := by
  simp [writes_of_identity, List.filterMap]

/-- One packet of a run whose reads succeed: the packet is written, with its own header and
data, to a registered stream of its identity, which is created if there was none. -/
theorem read_packet_spec {comp : vrt_packet → vrt_packet → Bool} (hc : IdentityOrder comp)
    {ω : Oracle} (hω : reads_succeed ω) (file_path_in : fs_path) (p : vrt_packet)
    (data : List Nat) (st : State) (inv : RegInv comp file_path_in st) :
    ∃ st1, read_packet comp ω file_path_in p data st = (none, st1) ∧
      RegInv comp file_path_in st1 ∧
      (∀ k, (∃ el ∈ st1.output_streams, identity el.1 = k) ↔
        ((∃ el ∈ st.output_streams, identity el.1 = k) ∨ identity p = k)) ∧
      (∀ k, writes_of_identity k st1.trace =
        writes_of_identity k st.trace ++ if identity p = k then [(p.header, data)] else []) := by
  unfold read_packet
  cases hf : map_find comp st.output_streams p with
  | some it =>
    obtain ⟨hmem, hid⟩ := map_find_some hc hf
    have hsp : it.2.packet = it.1 := by rw [inv.streams it hmem]
    have heq : perform ω (.write it.2 p.header data) st =
        (none, ⟨st.output_streams, st.trace ++ [(.write it.2 p.header data, none)]⟩) := by
      simp only [perform]
      rw [hω _ (.write it.2 p.header data) rfl]
    refine ⟨_, heq, ?_, ?_, ?_⟩
    · refine ⟨inv.streams, inv.sorted, ?_, ?_, ?_⟩
      · intro c hcm s h d hcw
        rcases List.mem_append.1 hcm with hcm | hcm
        · exact inv.written c hcm s h d hcw
        · simp only [List.mem_singleton] at hcm
          subst hcm
          simp only [Call.write.injEq] at hcw
          exact ⟨it, hmem, hcw.1⟩
      · intro c hcm s hcw
        rcases List.mem_append.1 hcm with hcm | hcm
        · exact inv.constructed c hcm s hcw
        · simp only [List.mem_singleton] at hcm
          subst hcm
          simp at hcw
      · intro c hcm
        rcases List.mem_append.1 hcm with hcm | hcm
        · exact inv.read_calls c hcm
        · simp only [List.mem_singleton] at hcm
          subst hcm
          rfl
    · intro k
      constructor
      · intro h; exact Or.inl h
      · rintro (h | h)
        · exact h
        · exact ⟨it, hmem, hid.trans h⟩
    · intro k
      simp only [writes_of_identity_append, writes_of_identity_write, hsp, hid]
  | none =>
    have hne := map_find_none hc hf
    obtain ⟨he2, hemem, hesorted⟩ :=
      map_emplace_new hc p ⟨file_path_in, p⟩ st.output_streams hne
    have heq : (match (perform ω (.construct ⟨file_path_in, p⟩) st).1 with
        | some e => (some e, (perform ω (.construct ⟨file_path_in, p⟩) st).2)
        | none =>
          perform ω (.write (map_emplace comp p ⟨file_path_in, p⟩
              (perform ω (.construct ⟨file_path_in, p⟩) st).2.output_streams).2.2 p.header data)
            { (perform ω (.construct ⟨file_path_in, p⟩) st).2 with
              output_streams := (map_emplace comp p ⟨file_path_in, p⟩
                (perform ω (.construct ⟨file_path_in, p⟩) st).2.output_streams).1 }) =
        (none, ⟨(map_emplace comp p ⟨file_path_in, p⟩ st.output_streams).1,
          (st.trace ++ [(.construct ⟨file_path_in, p⟩, none)]) ++
            [(.write ⟨file_path_in, p⟩ p.header data, none)]⟩) := by
      simp only [perform]
      rw [hω _ (.construct ⟨file_path_in, p⟩) rfl]
      simp only []
      rw [he2, hω _ (.write ⟨file_path_in, p⟩ p.header data) rfl]
    refine ⟨_, heq, ?_, ?_, ?_⟩
    · refine ⟨?_, hesorted inv.sorted, ?_, ?_, ?_⟩
      · intro el hel
        rcases (hemem el).1 hel with rfl | hel
        · rfl
        · exact inv.streams el hel
      · intro c hcm s h d hcw
        rcases List.mem_append.1 hcm with hcm | hcm
        · rcases List.mem_append.1 hcm with hcm | hcm
          · obtain ⟨el, hel, hs⟩ := inv.written c hcm s h d hcw
            exact ⟨el, (hemem el).2 (Or.inr hel), hs⟩
          · simp only [List.mem_singleton] at hcm
            subst hcm
            simp at hcw
        · simp only [List.mem_singleton] at hcm
          subst hcm
          simp only [Call.write.injEq] at hcw
          exact ⟨_, (hemem _).2 (Or.inl rfl), hcw.1⟩
      · intro c hcm s hcw
        rcases List.mem_append.1 hcm with hcm | hcm
        · rcases List.mem_append.1 hcm with hcm | hcm
          · obtain ⟨el, hel, hs⟩ := inv.constructed c hcm s hcw
            exact ⟨el, (hemem el).2 (Or.inr hel), hs⟩
          · simp only [List.mem_singleton] at hcm
            subst hcm
            simp only [Call.construct.injEq] at hcw
            exact ⟨_, (hemem _).2 (Or.inl rfl), hcw⟩
        · simp only [List.mem_singleton] at hcm
          subst hcm
          simp at hcw
      · intro c hcm
        rcases List.mem_append.1 hcm with hcm | hcm
        · rcases List.mem_append.1 hcm with hcm | hcm
          · exact inv.read_calls c hcm
          · simp only [List.mem_singleton] at hcm
            subst hcm
            rfl
        · simp only [List.mem_singleton] at hcm
          subst hcm
          rfl
    · intro k
      constructor
      · rintro ⟨el, hel, hk⟩
        rcases (hemem el).1 hel with rfl | hel
        · exact Or.inr hk
        · exact Or.inl ⟨el, hel, hk⟩
      · rintro (⟨el, hel, hk⟩ | h)
        · exact ⟨el, (hemem el).2 (Or.inr hel), hk⟩
        · exact ⟨_, (hemem _).2 (Or.inl rfl), h⟩
    · intro k
      simp only [writes_of_identity_append, writes_of_identity_write,
        writes_of_identity_construct, List.append_nil]

/-- The read loop of a run whose reads succeed, from any state that satisfies the
invariant. -/
theorem read_loop_spec {comp : vrt_packet → vrt_packet → Bool} (hc : IdentityOrder comp)
    {ω : Oracle} (hω : reads_succeed ω) (file_path_in : fs_path) :
    ∀ (l : List (vrt_packet × List Nat)) (st : State), RegInv comp file_path_in st →
      ∃ st1, read_loop comp ω file_path_in (packets_read l) st = (none, st1) ∧
        RegInv comp file_path_in st1 ∧
        (∀ k, (∃ el ∈ st1.output_streams, identity el.1 = k) ↔
          ((∃ el ∈ st.output_streams, identity el.1 = k) ∨ ∃ pd ∈ l, identity pd.1 = k)) ∧
        (∀ k, writes_of_identity k st1.trace =
          writes_of_identity k st.trace ++
            (l.filter (fun pd => decide (identity pd.1 = k))).map
              (fun pd => (pd.1.header, pd.2)))
  | [], st, inv => ⟨st, rfl, inv, by simp, by simp⟩
  | pd :: l, st, inv => by
    obtain ⟨st1, h1, inv1, hk1, hw1⟩ := read_packet_spec hc hω file_path_in pd.1 pd.2 st inv
    obtain ⟨st2, h2, inv2, hk2, hw2⟩ := read_loop_spec hc hω file_path_in l st1 inv1
    refine ⟨st2, ?_, inv2, ?_, ?_⟩
    · simp only [packets_read, List.map_cons, read_loop, h1]
      exact h2
    · intro k
      rw [hk2 k, hk1 k, List.exists_mem_cons_iff, or_assoc]
    · intro k
      rw [hw2 k, hw1 k, List.append_assoc]
      congr 1
      by_cases hpk : identity pd.1 = k <;> simp [List.filter_cons, hpk]

theorem RegInv_initial (comp : vrt_packet → vrt_packet → Bool) (file_path_in : fs_path) :
    RegInv comp file_path_in ⟨[], []⟩ :=
  ⟨by simp, by simp, by simp, by simp, by simp⟩

/-- Under the invariant, the writes to a registered stream are the writes to streams of its
identity. -/
theorem writes_to_registered {comp : vrt_packet → vrt_packet → Bool} (hc : IdentityOrder comp)
    {file_path_in : fs_path} {st : State} (inv : RegInv comp file_path_in st)
    (el : vrt_packet × OutputStream) (hel : el ∈ st.output_streams) :
    writes_to el.2 st.trace = writes_of_identity (identity el.1) st.trace := by
  unfold writes_to writes_of_identity
  apply List.filterMap_congr
  intro c hcm
  cases hc1 : c.1 with
  | write s h d =>
    simp only []
    have hiff : s = el.2 ↔ identity s.packet = identity el.1 := by
      constructor
      · intro e
        rw [e, inv.streams el hel]
      · intro e
        obtain ⟨el1, hel1, hs⟩ := inv.written c hcm s h d hc1
        have hp1 : s.packet = el1.1 := by rw [← hs, inv.streams el1 hel1]
        rw [hp1] at e
        have := List.inj_on_of_nodup_map (sorted_identity_inj hc inv.sorted) hel1 hel e
        rw [← hs, this]
    by_cases hs : s = el.2
    · rw [if_pos hs, if_pos (hiff.1 hs)]
    · rw [if_neg hs, if_neg (fun e => hs (hiff.2 e))]
  | construct s => rfl
  | rename s f => rfl
  | remove_temporary s => rfl
  | remove_new s => rfl
  | warning f => rfl

/-- C6: with a comparator that is a strict weak order whose equivalence is equality of
identities, and reads that succeed, the read loop ends normally; the registered keys have
pairwise different identities and an identity is registered exactly when some packet has it;
the writes a registered stream receives are, in order, the header and data of exactly the
input packets of its identity; and every write goes to a registered stream. -/
theorem read_loop_groups_by_identity {comp : vrt_packet → vrt_packet → Bool}
    (hc : IdentityOrder comp) {ω : Oracle} (hω : reads_succeed ω) (file_path_in : fs_path)
    (l : List (vrt_packet × List Nat)) :
    (read_loop comp ω file_path_in (packets_read l) ⟨[], []⟩).1 = none ∧
      ((read_loop comp ω file_path_in (packets_read l) ⟨[], []⟩).2.output_streams.map
        (fun el => identity el.1)).Nodup ∧
      (∀ k, (∃ el ∈ (read_loop comp ω file_path_in (packets_read l) ⟨[], []⟩).2.output_streams,
        identity el.1 = k) ↔ ∃ pd ∈ l, identity pd.1 = k) ∧
      (∀ el ∈ (read_loop comp ω file_path_in (packets_read l) ⟨[], []⟩).2.output_streams,
        el.2 = ⟨file_path_in, el.1⟩ ∧
        writes_to el.2 (read_loop comp ω file_path_in (packets_read l) ⟨[], []⟩).2.trace =
          (l.filter (fun pd => decide (identity pd.1 = identity el.1))).map
            (fun pd => (pd.1.header, pd.2))) ∧
      (∀ c ∈ (read_loop comp ω file_path_in (packets_read l) ⟨[], []⟩).2.trace,
        ∀ s h d, c.1 = .write s h d →
          ∃ el ∈ (read_loop comp ω file_path_in (packets_read l) ⟨[], []⟩).2.output_streams,
            el.2 = s) := by
  obtain ⟨st1, h1, inv1, hk1, hw1⟩ :=
    read_loop_spec hc hω file_path_in l ⟨[], []⟩ (RegInv_initial comp file_path_in)
  rw [h1]
  refine ⟨rfl, sorted_identity_inj hc inv1.sorted, ?_, ?_, inv1.written⟩
  · intro k
    rw [hk1 k]
    simp
  · intro el hel
    refine ⟨inv1.streams el hel, ?_⟩
    rw [writes_to_registered hc inv1 el hel, hw1]
    simp [writes_of_identity]

/-! ## The comparator of section 4.1 meets the requirement of the map -/

theorem identity_key_injective (i j : PacketIdentity) (h : identity_key i = identity_key j) :
    i = j := by
  obtain ⟨ci, si⟩ := i
  obtain ⟨cj, sj⟩ := j
  unfold identity_key at h
  rcases ci with _ | ⟨o, c, p⟩ <;> rcases cj with _ | ⟨o1, c1, p1⟩ <;>
    rcases si with _ | s <;> rcases sj with _ | s1 <;> simp_all

theorem ComparatorId_order : IdentityOrder ComparatorId := by
  constructor
  · intro a b c hab hbc
    unfold ComparatorId at *
    rw [decide_eq_true_iff] at *
    exact lt_trans hab hbc
  · intro a b
    unfold ComparatorId
    rw [decide_eq_false_iff_not, decide_eq_false_iff_not]
    constructor
    · rintro ⟨h1, h2⟩
      exact identity_key_injective _ _ (le_antisymm (not_lt.1 h2) (not_lt.1 h1))
    · intro e
      rw [e]
      exact ⟨lt_irrefl _, lt_irrefl _⟩

/-! ## The loops of `finish` and of `signal_handler` -/

theorem swallow_of_removal {ω : Oracle} (hfs : removals_throw_filesystem_errors ω)
    (n : Nat) (c : Call) (hc : c.is_removal = true) :
    swallow_filesystem_error (ω n c) = none := by
  have h := hfs n c hc
  cases hω : ω n c with
  | none => rfl
  | some e =>
    cases e with
    | filesystem_error => rfl
    | other => exact absurd hω h

theorem calls_append (t1 t2 : List (Call × Option Exn)) :
    calls (t1 ++ t2) = calls t1 ++ calls t2 := by
  simp [calls]

/-- When only filesystem errors are thrown, the first loop of `finish` calls
`remove_temporary` on every entry and ends normally. -/
theorem remove_temporary_loop_spec {ω : Oracle}
    (hfs : removals_throw_filesystem_errors ω) :
    ∀ (entries : List (vrt_packet × OutputStream)) (st : State),
      ∃ t, remove_temporary_loop ω entries st = (none, ⟨st.output_streams, st.trace ++ t⟩) ∧
        calls t = entries.map (fun el => .remove_temporary el.2)
  | [], st => ⟨[], by simp [remove_temporary_loop], by simp [calls]⟩
  | el :: rest, st => by
    obtain ⟨t, ht, hcalls⟩ := remove_temporary_loop_spec hfs rest
      (perform ω (Call.remove_temporary el.2) st).2
    refine ⟨(Call.remove_temporary el.2, ω st.trace.length (Call.remove_temporary el.2)) :: t,
      ?_, ?_⟩
    · simp only [remove_temporary_loop, perform,
        swallow_of_removal hfs _ (Call.remove_temporary el.2) rfl] at ht ⊢
      rw [ht]
      simp
    · simp only [calls, List.map_cons] at hcalls ⊢
      rw [hcalls]

/-- When no rename throws, the rename loop renames every entry to its final path. -/
theorem rename_loop_spec {ω : Oracle} (hω : ∀ n s f, ω n (.rename s f) = none)
    (file_path_in : fs_path) (diffs : PacketIdDiffs) :
    ∀ (entries : List (vrt_packet × OutputStream)) (st : State),
      rename_loop ω file_path_in diffs entries st =
        (none, ⟨st.output_streams, st.trace ++ entries.map (fun el =>
          (.rename el.2 (final_file_path file_path_in el.1 diffs), none))⟩)
  | [], st => by simp [rename_loop]
  | el :: rest, st => by
    simp only [rename_loop, perform, hω]
    rw [rename_loop_spec hω file_path_in diffs rest]
    simp

/-- When removals throw nothing but filesystem errors, the loop of the catch block of
`finish` calls `remove_new` on every entry and ends normally. -/
theorem remove_new_loop_spec {ω : Oracle} (hfs : removals_throw_filesystem_errors ω) :
    ∀ (entries : List (vrt_packet × OutputStream)) (st : State),
      ∃ t, remove_new_loop ω entries st = (none, ⟨st.output_streams, st.trace ++ t⟩) ∧
        calls t = entries.map (fun el => .remove_new el.2)
  | [], st => ⟨[], by simp [remove_new_loop], by simp [calls]⟩
  | el :: rest, st => by
    obtain ⟨t, ht, hcalls⟩ := remove_new_loop_spec hfs rest
      (perform ω (Call.remove_new el.2) st).2
    refine ⟨(Call.remove_new el.2, ω st.trace.length (Call.remove_new el.2)) :: t, ?_, ?_⟩
    · simp only [remove_new_loop, perform,
        swallow_of_removal hfs _ (Call.remove_new el.2) rfl] at ht ⊢
      rw [ht]
      simp
    · simp only [calls, List.map_cons] at hcalls ⊢
      rw [hcalls]

/-- The rename loop when a rename throws: the renames before it succeeded, it is the last
call, and the map is as before. -/
theorem rename_loop_failure (ω : Oracle) (file_path_in : fs_path) (diffs : PacketIdDiffs) :
    ∀ (entries : List (vrt_packet × OutputStream)) (st st1 : State) (e : Exn),
      rename_loop ω file_path_in diffs entries st = (some e, st1) →
      ∃ pre el post, entries = pre ++ el :: post ∧
        st1 = ⟨st.output_streams,
          st.trace ++ pre.map (fun x =>
              (Call.rename x.2 (final_file_path file_path_in x.1 diffs), none)) ++
            [(Call.rename el.2 (final_file_path file_path_in el.1 diffs), some e)]⟩
  | [], st, st1, e, h => by simp [rename_loop] at h
  | el :: rest, st, st1, e, h => by
    unfold rename_loop at h
    simp only [perform] at h
    cases hω : ω st.trace.length
        (Call.rename el.2 (final_file_path file_path_in el.1 diffs)) with
    | some e1 =>
      rw [hω] at h
      simp only [Prod.mk.injEq, Option.some.injEq] at h
      refine ⟨[], el, rest, rfl, ?_⟩
      rw [← h.2, ← h.1]
      simp
    | none =>
      rw [hω] at h
      obtain ⟨pre, el1, post, hsplit, hst⟩ :=
        rename_loop_failure ω file_path_in diffs rest _ st1 e h
      refine ⟨el :: pre, el1, post, by rw [hsplit]; rfl, ?_⟩
      rw [hst]
      simp

/-! ## Every stream created is registered, whatever throws -/

theorem created_streams_append (t1 t2 : List (Call × Option Exn)) :
    created_streams (t1 ++ t2) = created_streams t1 ++ created_streams t2 := by
  unfold created_streams
  exact List.filterMap_append _ _ _

theorem created_streams_of_no_construct (t : List (Call × Option Exn))
    (h : ∀ c ∈ t, c.1.is_construct = false) : created_streams t = [] := by
  unfold created_streams
  rw [List.filterMap_eq_nil_iff]
  intro c hc
  have := h c hc
  obtain ⟨c1, r⟩ := c
  cases c1 <;> simp_all [Call.is_construct]

theorem map_emplace_mem (comp : vrt_packet → vrt_packet → Bool) (k : vrt_packet)
    (s : OutputStream) :
    ∀ (m : List (vrt_packet × OutputStream)), map_find comp m k = none →
      (k, s) ∈ (map_emplace comp k s m).1 ∧ ∀ el ∈ m, el ∈ (map_emplace comp k s m).1
  | [], _ => by simp [map_emplace]
  | el :: m, hf => by
    unfold map_find at hf
    rw [List.find?_cons] at hf
    cases hb : (!comp el.1 k && !comp k el.1) with
    | true => rw [hb] at hf; simp at hf
    | false =>
      rw [hb] at hf
      have ih := map_emplace_mem comp k s m hf
      unfold map_emplace
      cases h1 : comp el.1 k with
      | true =>
        simp only [if_true]
        refine ⟨List.mem_cons_of_mem _ ih.1, ?_⟩
        intro x hx
        rcases List.mem_cons.1 hx with rfl | hx
        · exact List.mem_cons_self _ _
        · exact List.mem_cons_of_mem _ (ih.2 x hx)
      | false =>
        cases h2 : comp k el.1 with
        | true =>
          simp only [Bool.false_eq_true, if_false, if_true]
          exact ⟨List.mem_cons_self _ _, fun x hx => List.mem_cons_of_mem _ hx⟩
        | false => rw [h1, h2] at hb; simp at hb

/-- One packet, whatever the comparator and whatever throws: a stream created is
registered. -/
theorem read_packet_registered (comp : vrt_packet → vrt_packet → Bool) (ω : Oracle)
    (file_path_in : fs_path) (p : vrt_packet) (data : List Nat) (st : State)
    (h : all_created_registered st) :
    all_created_registered (read_packet comp ω file_path_in p data st).2 := by
  unfold read_packet
  cases hf : map_find comp st.output_streams p with
  | some it =>
    intro s hs
    simp only [perform, created_streams_append] at hs
    rw [created_streams_of_no_construct [_] (by simp [Call.is_construct]),
      List.append_nil] at hs
    exact h s hs
  | none =>
    obtain ⟨hnew, hold⟩ := map_emplace_mem comp p ⟨file_path_in, p⟩ st.output_streams hf
    simp only [perform]
    cases hω : ω st.trace.length (.construct ⟨file_path_in, p⟩) with
    | some e =>
      intro s hs
      simp only [created_streams_append] at hs
      rw [show created_streams [(Call.construct ⟨file_path_in, p⟩, some e)] = [] from rfl,
        List.append_nil] at hs
      exact h s hs
    | none =>
      intro s hs
      simp only [created_streams_append] at hs
      rw [created_streams_of_no_construct [(Call.write _ _ _, _)]
        (by simp [Call.is_construct]), List.append_nil,
        show created_streams [(Call.construct ⟨file_path_in, p⟩, none)] =
          [⟨file_path_in, p⟩] from rfl] at hs
      rcases List.mem_append.1 hs with hs | hs
      · obtain ⟨el, hel, he⟩ := h s hs
        exact ⟨el, hold el hel, he⟩
      · rw [List.mem_singleton] at hs
        exact ⟨_, hnew, hs.symm⟩

theorem read_loop_registered (comp : vrt_packet → vrt_packet → Bool) (ω : Oracle)
    (file_path_in : fs_path) :
    ∀ (input : List ReadResult) (st : State), all_created_registered st →
      all_created_registered (read_loop comp ω file_path_in input st).2
  | [], _, h => h
  | .error _ :: _, _, h => h
  | .packet p data :: rest, st, h => by
    have h1 := read_packet_registered comp ω file_path_in p data st h
    unfold read_loop
    cases hr : read_packet comp ω file_path_in p data st with
    | mk r st1 =>
      rw [hr] at h1
      cases r with
      | some e => exact h1
      | none => exact read_loop_registered comp ω file_path_in rest st1 h1

/-- A loop that only appends calls other than constructor calls keeps the invariant. -/
theorem registered_of_append {st st1 : State} (h : all_created_registered st)
    (hreg : st1.output_streams = st.output_streams)
    (ht : ∃ t, st1.trace = st.trace ++ t ∧ ∀ c ∈ t, c.1.is_construct = false) :
    all_created_registered st1 := by
  obtain ⟨t, ht, hc⟩ := ht
  intro s hs
  rw [ht, created_streams_append, created_streams_of_no_construct t hc, List.append_nil] at hs
  rw [hreg]
  exact h s hs

theorem remove_temporary_loop_frame (ω : Oracle) :
    ∀ (entries : List (vrt_packet × OutputStream)) (st : State),
      (remove_temporary_loop ω entries st).2.output_streams = st.output_streams ∧
        ∃ t, (remove_temporary_loop ω entries st).2.trace = st.trace ++ t ∧
          ∀ c ∈ t, c.1.is_construct = false
  | [], st => ⟨rfl, [], by simp [remove_temporary_loop], by simp⟩
  | el :: rest, st => by
    obtain ⟨h1, t, h2, h3⟩ := remove_temporary_loop_frame ω rest
      (perform ω (Call.remove_temporary el.2) st).2
    unfold remove_temporary_loop
    simp only []
    cases swallow_filesystem_error (perform ω (Call.remove_temporary el.2) st).1 with
    | some e =>
      exact ⟨rfl,
        [(Call.remove_temporary el.2, ω st.trace.length (Call.remove_temporary el.2))], rfl,
        by simp [Call.is_construct]⟩
    | none =>
      refine ⟨h1,
        (Call.remove_temporary el.2, ω st.trace.length (Call.remove_temporary el.2)) :: t,
        ?_, ?_⟩
      · rw [h2]; simp [perform]
      · intro c hc
        rcases List.mem_cons.1 hc with rfl | hc
        · rfl
        · exact h3 c hc

theorem remove_new_loop_frame (ω : Oracle) :
    ∀ (entries : List (vrt_packet × OutputStream)) (st : State),
      (remove_new_loop ω entries st).2.output_streams = st.output_streams ∧
        ∃ t, (remove_new_loop ω entries st).2.trace = st.trace ++ t ∧
          ∀ c ∈ t, c.1.is_construct = false
  | [], st => ⟨rfl, [], by simp [remove_new_loop], by simp⟩
  | el :: rest, st => by
    obtain ⟨h1, t, h2, h3⟩ := remove_new_loop_frame ω rest
      (perform ω (Call.remove_new el.2) st).2
    unfold remove_new_loop
    simp only []
    cases swallow_filesystem_error (perform ω (Call.remove_new el.2) st).1 with
    | some e =>
      exact ⟨rfl, [(Call.remove_new el.2, ω st.trace.length (Call.remove_new el.2))], rfl,
        by simp [Call.is_construct]⟩
    | none =>
      refine ⟨h1, (Call.remove_new el.2, ω st.trace.length (Call.remove_new el.2)) :: t,
        ?_, ?_⟩
      · rw [h2]; simp [perform]
      · intro c hc
        rcases List.mem_cons.1 hc with rfl | hc
        · rfl
        · exact h3 c hc

theorem rename_loop_frame (ω : Oracle) (file_path_in : fs_path) (diffs : PacketIdDiffs) :
    ∀ (entries : List (vrt_packet × OutputStream)) (st : State),
      (rename_loop ω file_path_in diffs entries st).2.output_streams = st.output_streams ∧
        ∃ t, (rename_loop ω file_path_in diffs entries st).2.trace = st.trace ++ t ∧
          ∀ c ∈ t, c.1.is_construct = false
  | [], st => ⟨rfl, [], by simp [rename_loop], by simp⟩
  | el :: rest, st => by
    obtain ⟨h1, t, h2, h3⟩ := rename_loop_frame ω file_path_in diffs rest
      (perform ω (Call.rename el.2 (final_file_path file_path_in el.1 diffs)) st).2
    unfold rename_loop
    simp only []
    cases (perform ω (Call.rename el.2 (final_file_path file_path_in el.1 diffs)) st).1 with
    | some e =>
      exact ⟨rfl,
        [(Call.rename el.2 (final_file_path file_path_in el.1 diffs),
          ω st.trace.length (Call.rename el.2 (final_file_path file_path_in el.1 diffs)))],
        rfl, by simp [Call.is_construct]⟩
    | none =>
      refine ⟨h1,
        (Call.rename el.2 (final_file_path file_path_in el.1 diffs),
          ω st.trace.length (Call.rename el.2 (final_file_path file_path_in el.1 diffs))) :: t,
        ?_, ?_⟩
      · rw [h2]; simp [perform]
      · intro c hc
        rcases List.mem_cons.1 hc with rfl | hc
        · rfl
        · exact h3 c hc

theorem finish_frame (ω : Oracle) (pid : List vrt_packet → PacketIdDiffs)
    (file_path_in : fs_path) (st : State) :
    (finish ω pid file_path_in st).2.output_streams = st.output_streams ∧
      ∃ t, (finish ω pid file_path_in st).2.trace = st.trace ++ t ∧
        ∀ c ∈ t, c.1.is_construct = false := by
  unfold finish
  split
  · obtain ⟨h1, t, h2, h3⟩ := remove_temporary_loop_frame ω st.output_streams st
    cases hr : remove_temporary_loop ω st.output_streams st with
    | mk r st1 =>
      rw [hr] at h1 h2
      cases r with
      | some e => exact ⟨h1, t, h2, h3⟩
      | none =>
        refine ⟨h1, t ++ [(.warning file_path_in, none)], ?_, ?_⟩
        · simp only []
          rw [h2, List.append_assoc]
        · intro c hc
          rcases List.mem_append.1 hc with hc | hc
          · exact h3 c hc
          · rw [List.mem_singleton] at hc; subst hc; rfl
  · obtain ⟨h1, t, h2, h3⟩ := rename_loop_frame ω file_path_in
      (pid (st.output_streams.map (fun el => el.1))) st.output_streams st
    simp only []
    cases hr : rename_loop ω file_path_in (pid (st.output_streams.map (fun el => el.1)))
        st.output_streams st with
    | mk r st1 =>
      rw [hr] at h1 h2
      cases r with
      | none => exact ⟨h1, t, h2, h3⟩
      | some e =>
        obtain ⟨g1, u, g2, g3⟩ := remove_new_loop_frame ω st.output_streams st1
        simp only []
        cases hr2 : remove_new_loop ω st.output_streams st1 with
        | mk r2 st2 =>
          rw [hr2] at g1 g2
          have : st2.trace = st.trace ++ (t ++ u) := by rw [g2, h2, List.append_assoc]
          have hc : ∀ c ∈ t ++ u, c.1.is_construct = false := by
            intro c hc
            rcases List.mem_append.1 hc with hc | hc
            · exact h3 c hc
            · exact g3 c hc
          cases r2 with
          | some e2 => exact ⟨g1.trans h1, t ++ u, this, hc⟩
          | none => exact ⟨g1.trans h1, t ++ u, this, hc⟩

/-- In the state `process` ends in, normally or with an exception, every stream that was
created is registered. -/
theorem process_registered (comp : vrt_packet → vrt_packet → Bool) (ω : Oracle)
    (pid : List vrt_packet → PacketIdDiffs) (file_path_in : fs_path)
    (input : List ReadResult) :
    all_created_registered (process comp ω pid file_path_in input).2 := by
  have h0 : all_created_registered ⟨[], []⟩ := by
    intro s hs
    simp [created_streams] at hs
  have h1 := read_loop_registered comp ω file_path_in input ⟨[], []⟩ h0
  unfold process
  cases hr : read_loop comp ω file_path_in input ⟨[], []⟩ with
  | mk r st =>
    rw [hr] at h1
    cases r with
    | some e => exact h1
    | none =>
      obtain ⟨g1, g2⟩ := finish_frame ω pid file_path_in st
      exact registered_of_append h1 g1 g2

theorem fail_at_filesystem_errors (n : Nat) :
    removals_throw_filesystem_errors (fail_at n .filesystem_error) := by
  intro m c _
  unfold fail_at
  split <;> simp


/-! ## C4: a capture with a single identity -/

theorem renames_append (t1 t2 : List (Call × Option Exn)) :
    renames (t1 ++ t2) = renames t1 ++ renames t2 := by
  unfold renames
  exact List.filterMap_append _ _ _

theorem renames_of_touches_only_temporary (t : List (Call × Option Exn))
    (h : ∀ c ∈ t, c.1.touches_only_temporary = true) : renames t = [] := by
  unfold renames
  rw [List.filterMap_eq_nil_iff]
  intro c hc
  have := h c hc
  obtain ⟨c1, r⟩ := c
  cases c1 <;> simp_all [Call.touches_only_temporary]

theorem touched_paths_of_touches_only_temporary (temporary_path : OutputStream → fs_path)
    (t : List (Call × Option Exn)) (h : ∀ c ∈ t, c.1.touches_only_temporary = true) :
    ∀ x ∈ touched_paths temporary_path t, ∃ s, x = temporary_path s := by
  intro x hx
  unfold touched_paths at hx
  obtain ⟨c, hc, hxc⟩ := List.mem_flatMap.1 hx
  have := h c hc
  obtain ⟨c1, r⟩ := c
  cases c1 <;> simp_all [Call.touches_only_temporary]

theorem read_call_touches_only_temporary (c : Call) (h : c.is_read_loop_call = true) :
    c.touches_only_temporary = true := by
  cases c <;> simp_all [Call.is_read_loop_call, Call.touches_only_temporary]

theorem length_le_one_of_nodup_of_all_eq {α : Type} (l : List α) (hn : l.Nodup)
    (h : ∀ a ∈ l, ∀ b ∈ l, a = b) : l.length ≤ 1 := by
  match l, hn, h with
  | [], _, _ => simp
  | [_], _, _ => simp
  | a :: b :: rest, hn, h =>
    exfalso
    have hab : a = b := h a (by simp) b (by simp)
    rw [List.nodup_cons] at hn
    exact hn.1 (by simp [hab])

/-- C4: when every packet has the same identity (or there is none), the reads succeed and
removals throw nothing but filesystem errors, `process` returns normally with at most one
stream in the map; no rename is made; after the constructor calls and writes of the read
loop the only calls are `remove_temporary` on every registered stream and the warning; and
the input path, not being a temporary path, is not among the paths written, renamed or
deleted. -/
theorem process_single_identity {comp : vrt_packet → vrt_packet → Bool}
    (hc : IdentityOrder comp) {ω : Oracle} (hω : reads_succeed ω)
    (hfs : removals_throw_filesystem_errors ω) (pid : List vrt_packet → PacketIdDiffs)
    (file_path_in : fs_path) (l : List (vrt_packet × List Nat))
    (hsame : ∀ pd ∈ l, ∀ pd1 ∈ l, identity pd.1 = identity pd1.1)
    (temporary_path : OutputStream → fs_path)
    (htmp : ∀ s, temporary_path s ≠ file_path_in) :
    ∃ st t, process comp ω pid file_path_in (packets_read l) = (none, st) ∧
      st.output_streams.length ≤ 1 ∧
      renames st.trace = [] ∧
      (∀ el ∈ st.output_streams, Call.remove_temporary el.2 ∈ calls st.trace) ∧
      calls st.trace = calls t ++
        st.output_streams.map (fun el => Call.remove_temporary el.2) ++
        [Call.warning file_path_in] ∧
      (∀ c ∈ t, c.1.is_read_loop_call = true) ∧
      file_path_in ∉ touched_paths temporary_path st.trace := by
  obtain ⟨st1, h1, inv1, hk1, _⟩ :=
    read_loop_spec hc hω file_path_in l ⟨[], []⟩ (RegInv_initial comp file_path_in)
  have hlen : st1.output_streams.length ≤ 1 := by
    have hn := sorted_identity_inj hc inv1.sorted
    have := length_le_one_of_nodup_of_all_eq _ hn (by
      intro a ha b hb
      obtain ⟨ea, hea, rfl⟩ := List.mem_map.1 ha
      obtain ⟨eb, heb, rfl⟩ := List.mem_map.1 hb
      rcases (hk1 (identity ea.1)).1 ⟨ea, hea, rfl⟩ with ⟨x, hx, _⟩ | ⟨pa, hpa, hia⟩
      · simp at hx
      rcases (hk1 (identity eb.1)).1 ⟨eb, heb, rfl⟩ with ⟨x, hx, _⟩ | ⟨pb, hpb, hib⟩
      · simp at hx
      rw [← hia, ← hib]
      exact hsame pa hpa pb hpb)
    simpa using this
  obtain ⟨u, hu, hcalls⟩ := remove_temporary_loop_spec hfs st1.output_streams st1
  have hproc : process comp ω pid file_path_in (packets_read l) =
      (none, ⟨st1.output_streams, st1.trace ++ u ++ [(.warning file_path_in, none)]⟩) := by
    unfold process
    rw [h1]
    simp only [finish, hlen, if_true, hu]
  have hu_only : ∀ c ∈ u, c.1.touches_only_temporary = true := by
    intro c hcu
    have : c.1 ∈ calls u := List.mem_map.2 ⟨c, hcu, rfl⟩
    rw [hcalls] at this
    obtain ⟨el, _, he⟩ := List.mem_map.1 this
    rw [← he]
    rfl
  have hall : ∀ c ∈ st1.trace ++ u ++ [(Call.warning file_path_in, (none : Option Exn))],
      c.1.touches_only_temporary = true := by
    intro c hcm
    rcases List.mem_append.1 hcm with hcm | hcm
    · rcases List.mem_append.1 hcm with hcm | hcm
      · exact read_call_touches_only_temporary _ (inv1.read_calls c hcm)
      · exact hu_only c hcm
    · rw [List.mem_singleton] at hcm
      subst hcm
      rfl
  refine ⟨_, st1.trace, hproc, hlen, renames_of_touches_only_temporary _ hall, ?_, ?_,
    inv1.read_calls, ?_⟩
  · intro el hel
    simp only [calls_append, hcalls]
    apply List.mem_append_left
    apply List.mem_append_right
    exact List.mem_map.2 ⟨el, hel, rfl⟩
  · simp only [calls_append, hcalls]
    rfl
  · intro hin
    obtain ⟨s, hs⟩ := touched_paths_of_touches_only_temporary temporary_path _ hall _ hin
    exact htmp s hs.symm

theorem fail_removals_reads_succeed : reads_succeed fail_removals := by
  intro n c h
  cases c <;> simp_all [Call.is_read_loop_call, fail_removals, Call.is_removal]

theorem fail_removals_filesystem_errors :
    removals_throw_filesystem_errors fail_removals := by
  intro n c _
  unfold fail_removals
  split <;> simp

theorem process_single_identity_witness :
    (process ComparatorId fail_removals packet_id_differences "split.vrt".toList
        (packets_read [(stream_packet 5, [10]), (stream_packet 5, [11])])).1 = none ∧
      renames (process ComparatorId fail_removals packet_id_differences "split.vrt".toList
        (packets_read [(stream_packet 5, [10]), (stream_packet 5, [11])])).2.trace = [] ∧
      "split.vrt".toList ∉ touched_paths (fun _ => "split.vrt.tmp".toList)
        (process ComparatorId fail_removals packet_id_differences "split.vrt".toList
          (packets_read [(stream_packet 5, [10]), (stream_packet 5, [11])])).2.trace := by
  obtain ⟨st, t, h, _, hren, _, _, _, htouch⟩ :=
    process_single_identity ComparatorId_order fail_removals_reads_succeed
      fail_removals_filesystem_errors packet_id_differences "split.vrt".toList
      [(stream_packet 5, [10]), (stream_packet 5, [11])] (by decide)
      (fun _ => "split.vrt.tmp".toList)
      (fun _ => (by decide : "split.vrt.tmp".toList ≠ "split.vrt".toList))
  rw [h]
  exact ⟨rfl, hren, htouch⟩

/-! ## C7: the names do not depend on the arrival order -/

theorem body_congr (a b : vrt_packet) (diffs : PacketIdDiffs)
    (h : identity a = identity b) : body a diffs = body b diffs := by
  unfold identity at h
  simp only [PacketIdentity.mk.injEq] at h
  obtain ⟨h1, h2⟩ := h
  unfold body body_class_id body_stream_id
  cases ha : a.header.has_class_id <;> cases hb : b.header.has_class_id <;>
    cases hsa : vrt_has_stream_id a.header <;> cases hsb : vrt_has_stream_id b.header <;>
    simp_all

theorem final_file_path_congr (file_path_in : fs_path) (a b : vrt_packet)
    (diffs : PacketIdDiffs) (h : identity a = identity b) :
    final_file_path file_path_in a diffs = final_file_path file_path_in b diffs := by
  unfold final_file_path
  rw [body_congr a b diffs h]

/-- Two maps in comparator order with the same identities list them in the same order. -/
theorem sorted_keys_unique {comp : vrt_packet → vrt_packet → Bool} (hc : IdentityOrder comp)
    (m1 m2 : List (vrt_packet × OutputStream))
    (s1 : m1.Pairwise (fun a b => comp a.1 b.1 = true))
    (s2 : m2.Pairwise (fun a b => comp a.1 b.1 = true))
    (hset : ∀ k, (∃ el ∈ m1, identity el.1 = k) ↔ ∃ el ∈ m2, identity el.1 = k) :
    m1.map (fun el => identity el.1) = m2.map (fun el => identity el.1) := by
  let r : PacketIdentity → PacketIdentity → Prop :=
    fun i j => ∃ a b, identity a = i ∧ identity b = j ∧ comp a b = true
  haveI : IsAntisymm PacketIdentity r := ⟨by
    rintro i j ⟨a, b, ha, hb, hab⟩ ⟨c, d, hc1, hd, hcd⟩
    exfalso
    have hac : comp a c = true := hc.congr_right hab (hb.trans hc1.symm)
    have had : comp a d = true := hc.trans a c d hac hcd
    have := ((hc.equiv a d).2 (ha.trans hd.symm)).1
    rw [had] at this
    exact absurd this (by decide)⟩
  have hsorted : ∀ m : List (vrt_packet × OutputStream),
      m.Pairwise (fun a b => comp a.1 b.1 = true) →
      (m.map (fun el => identity el.1)).Sorted r := by
    intro m hm
    unfold List.Sorted
    rw [List.pairwise_map]
    exact hm.imp (fun {a b} h => ⟨a.1, b.1, rfl, rfl, h⟩)
  apply List.eq_of_perm_of_sorted ?_ (hsorted m1 s1) (hsorted m2 s2)
  rw [List.perm_ext_iff_of_nodup (sorted_identity_inj hc s1) (sorted_identity_inj hc s2)]
  intro k
  simp only [List.mem_map]
  exact hset k

theorem map_pairs_congr (file_path_in : fs_path) (d : PacketIdDiffs) :
    ∀ (m1 m2 : List (vrt_packet × OutputStream)),
      m1.map (fun el => identity el.1) = m2.map (fun el => identity el.1) →
      m1.map (fun el => (identity el.1, final_file_path file_path_in el.1 d)) =
        m2.map (fun el => (identity el.1, final_file_path file_path_in el.1 d))
  | [], [], _ => rfl
  | [], _ :: _, h => by simp at h
  | _ :: _, [], h => by simp at h
  | a :: m1, b :: m2, h => by
    simp only [List.map_cons, List.cons.injEq] at h ⊢
    exact ⟨Prod.ext h.1 (final_file_path_congr _ _ _ _ h.1),
      map_pairs_congr file_path_in d m1 m2 h.2⟩

theorem no_failure_reads_succeed : reads_succeed no_failure := fun _ _ _ => rfl

theorem no_failure_filesystem_errors : removals_throw_filesystem_errors no_failure := by
  intro n c _
  simp [no_failure]

theorem renames_of_read_calls (t : List (Call × Option Exn))
    (h : ∀ c ∈ t, c.1.is_read_loop_call = true) : renames t = [] :=
  renames_of_touches_only_temporary t
    (fun c hc => read_call_touches_only_temporary _ (h c hc))

theorem renames_map_rename (g : vrt_packet → fs_path) :
    ∀ (m : List (vrt_packet × OutputStream)),
      renames (m.map (fun el => (Call.rename el.2 (g el.1), (none : Option Exn)))) =
        m.map (fun el => (identity el.2.packet, g el.1))
  | [] => rfl
  | a :: m => by
    have ih := renames_map_rename g m
    unfold renames at ih ⊢
    simp only [List.map_cons, List.filterMap_cons, ih]

/-- The renames of a run in which nothing throws: none when at most one identity is
registered, otherwise one for every registered key, in key order, to its final path. -/
theorem process_renames {comp : vrt_packet → vrt_packet → Bool} (hc : IdentityOrder comp)
    (pid : List vrt_packet → PacketIdDiffs) (file_path_in : fs_path)
    (l : List (vrt_packet × List Nat)) :
    ∃ st, process comp no_failure pid file_path_in (packets_read l) = (none, st) ∧
      st.output_streams.Pairwise (fun a b => comp a.1 b.1 = true) ∧
      (∀ k, (∃ el ∈ st.output_streams, identity el.1 = k) ↔ ∃ pd ∈ l, identity pd.1 = k) ∧
      renames st.trace =
        if st.output_streams.length ≤ 1 then []
        else st.output_streams.map (fun el => (identity el.1,
          final_file_path file_path_in el.1 (pid (st.output_streams.map (fun el => el.1))))) := by
  obtain ⟨st1, h1, inv1, hk1, _⟩ := read_loop_spec hc no_failure_reads_succeed file_path_in l
    ⟨[], []⟩ (RegInv_initial comp file_path_in)
  have hk : ∀ k, (∃ el ∈ st1.output_streams, identity el.1 = k) ↔
      ∃ pd ∈ l, identity pd.1 = k := by
    intro k
    rw [hk1 k]
    simp
  by_cases hlen : st1.output_streams.length ≤ 1
  · obtain ⟨u, hu, hcalls⟩ :=
      remove_temporary_loop_spec no_failure_filesystem_errors st1.output_streams st1
    refine ⟨⟨st1.output_streams, st1.trace ++ u ++ [(.warning file_path_in, none)]⟩, ?_,
      inv1.sorted, hk, ?_⟩
    · unfold process
      rw [h1]
      simp only [finish, hlen, if_true, hu]
    · simp only [hlen, if_true]
      apply renames_of_touches_only_temporary
      intro c hcm
      rcases List.mem_append.1 hcm with hcm | hcm
      · rcases List.mem_append.1 hcm with hcm | hcm
        · exact read_call_touches_only_temporary _ (inv1.read_calls c hcm)
        · have : c.1 ∈ calls u := List.mem_map.2 ⟨c, hcm, rfl⟩
          rw [hcalls] at this
          obtain ⟨el, _, he⟩ := List.mem_map.1 this
          rw [← he]
          rfl
      · rw [List.mem_singleton] at hcm
        subst hcm
        rfl
  · have hren := rename_loop_spec (ω := no_failure) (fun _ _ _ => rfl) file_path_in
      (pid (st1.output_streams.map (fun el => el.1))) st1.output_streams st1
    refine ⟨⟨st1.output_streams, st1.trace ++ st1.output_streams.map (fun el =>
      (.rename el.2 (final_file_path file_path_in el.1
        (pid (st1.output_streams.map (fun el => el.1)))), none))⟩, ?_, inv1.sorted, hk, ?_⟩
    · unfold process
      rw [h1]
      simp only [finish, hlen, if_false, hren]
    · simp only [hlen, if_false, renames_append, renames_of_read_calls _ inv1.read_calls,
        List.nil_append]
      rw [renames_map_rename (fun k => final_file_path file_path_in k
        (pid (st1.output_streams.map (fun el => el.1))))]
      apply List.map_congr_left
      intro el hel
      rw [inv1.streams el hel]

/-- C7: for a fixed input path, a comparator as the map requires and a diff calculator that
depends only on the identities of the keys in key order, two packet sequences with the same
set of identities, in runs where nothing throws, lead to the same renames: the same
identities, in the same order, to the same final paths; and with two or more identities
every registered identity is renamed exactly once. -/
theorem process_naming_deterministic {comp : vrt_packet → vrt_packet → Bool}
    (hc : IdentityOrder comp) (pid : List vrt_packet → PacketIdDiffs)
    (hpid : ∀ v w, v.map identity = w.map identity → pid v = pid w)
    (file_path_in : fs_path) (l1 l2 : List (vrt_packet × List Nat))
    (hset : ∀ k, (∃ pd ∈ l1, identity pd.1 = k) ↔ ∃ pd ∈ l2, identity pd.1 = k) :
    (process comp no_failure pid file_path_in (packets_read l1)).1 = none ∧
      (process comp no_failure pid file_path_in (packets_read l2)).1 = none ∧
      renames (process comp no_failure pid file_path_in (packets_read l1)).2.trace =
        renames (process comp no_failure pid file_path_in (packets_read l2)).2.trace ∧
      (2 ≤ (process comp no_failure pid file_path_in (packets_read l1)).2.output_streams.length →
        (renames (process comp no_failure pid file_path_in (packets_read l1)).2.trace).map
            (fun r => r.1) =
          (process comp no_failure pid file_path_in
            (packets_read l1)).2.output_streams.map (fun el => identity el.1)) := by
  obtain ⟨st1, h1, s1, k1, r1⟩ := process_renames hc pid file_path_in l1
  obtain ⟨st2, h2, s2, k2, r2⟩ := process_renames hc pid file_path_in l2
  rw [h1, h2]
  have hkeys : st1.output_streams.map (fun el => identity el.1) =
      st2.output_streams.map (fun el => identity el.1) := by
    apply sorted_keys_unique hc _ _ s1 s2
    intro k
    rw [k1 k, k2 k, hset k]
  have hlen : st1.output_streams.length = st2.output_streams.length := by
    have := congrArg List.length hkeys
    simpa using this
  have hd : pid (st1.output_streams.map (fun el => el.1)) =
      pid (st2.output_streams.map (fun el => el.1)) := by
    apply hpid
    simpa [Function.comp] using hkeys
  refine ⟨rfl, rfl, ?_, ?_⟩
  · simp only []
    rw [r1, r2, hlen, hd]
    split
    · rfl
    · exact map_pairs_congr file_path_in _ _ _ hkeys
  · intro h
    simp only [] at h ⊢
    rw [r1, if_neg (by omega)]
    simp [Function.comp]

theorem process_naming_deterministic_witness :
    renames (process ComparatorId no_failure packet_id_differences "split.vrt".toList
        (packets_read [(stream_packet 1, [10]), (stream_packet 0, [11]),
          (stream_packet 1, [12])])).2.trace =
      renames (process ComparatorId no_failure packet_id_differences "split.vrt".toList
        (packets_read [(stream_packet 0, [20]), (stream_packet 1, [21])])).2.trace :=
  (process_naming_deterministic ComparatorId_order packet_id_differences
    (fun _ _ h => by unfold packet_id_differences; rw [h]) "split.vrt".toList
    [(stream_packet 1, [10]), (stream_packet 0, [11]), (stream_packet 1, [12])]
    [(stream_packet 0, [20]), (stream_packet 1, [21])]
    (fun k => by simp only [List.exists_mem_cons_iff, List.not_mem_nil, false_and,
      exists_false, or_false]; tauto)).2.2.1

theorem read_loop_groups_by_identity_witness :
    writes_to (stream_of (stream_packet 1))
        (read_loop ComparatorId no_failure "split.vrt".toList
          (packets_read [(stream_packet 1, [10]), (stream_packet 0, [11]),
            (stream_packet 1, [12])]) ⟨[], []⟩).2.trace =
      [((stream_packet 1).header, [10]), ((stream_packet 1).header, [12])] :=
  (((read_loop_groups_by_identity ComparatorId_order no_failure_reads_succeed
    "split.vrt".toList [(stream_packet 1, [10]), (stream_packet 0, [11]),
      (stream_packet 1, [12])]).2.2.2.1
    (stream_packet 1, stream_of (stream_packet 1)) (by decide)).2).trans (by decide)

/-! ## The diff calculator of section 3 gives sound flags -/

theorem presence_varies_iff (v : List vrt_packet) (f : vrt_packet → Bool) :
    ((∃ a ∈ v, f a = true) ∧ ∃ a ∈ v, f a = false) ↔
      ∃ p ∈ v, ∃ q ∈ v, ¬ f p = f q := by
  constructor
  · rintro ⟨⟨a, ha, hfa⟩, b, hb, hfb⟩
    exact ⟨a, ha, b, hb, by rw [hfa, hfb]; decide⟩
  · rintro ⟨p, hp, q, hq, hne⟩
    cases hfp : f p <;> cases hfq : f q
    · rw [hfp, hfq] at hne; exact absurd rfl hne
    · exact ⟨⟨q, hq, hfq⟩, p, hp, hfp⟩
    · exact ⟨⟨p, hp, hfp⟩, q, hq, hfq⟩
    · rw [hfp, hfq] at hne; exact absurd rfl hne

theorem any_any_ne (xs : List Nat) :
    (xs.any fun x => xs.any fun y => x != y) = true ↔ ∃ x ∈ xs, ∃ y ∈ xs, ¬ x = y := by
  simp

theorem packet_id_differences_sound (v : List vrt_packet) :
    sound_flags v (packet_id_differences v) := by
  constructor
  · simp only [packet_id_differences, computeDiff]
    simp [List.isEmpty_iff, List.filterMap_eq_nil_iff, identity]
  · simp only [packet_id_differences, computeDiff]
    simp [List.isEmpty_iff, List.filterMap_eq_nil_iff, identity]
  · simp only [packet_id_differences, computeDiff]
    simp only [ne_eq, ← presence_varies_iff]
    simp [identity]
    apply or_congr_right
    constructor
    · rintro ⟨x, ⟨_, _, p, hp, hpc, rfl, _, _⟩, y, ⟨_, _, q, hq, hqc, rfl, _, _⟩, hne⟩
      exact ⟨p, hp, q, hq, hpc, hqc, hne⟩
    · rintro ⟨p, hp, q, hq, hpc, hqc, hne⟩
      exact ⟨_, ⟨_, _, p, hp, hpc, rfl, rfl, rfl⟩, _, ⟨_, _, q, hq, hqc, rfl, rfl, rfl⟩,
        hne⟩
  · simp only [packet_id_differences, computeDiff]
    simp only [ne_eq, ← presence_varies_iff]
    simp [identity]
    apply or_congr_right
    constructor
    · rintro ⟨x, ⟨_, _, p, hp, hpc, _, rfl, _⟩, y, ⟨_, _, q, hq, hqc, _, rfl, _⟩, hne⟩
      exact ⟨p, hp, q, hq, hpc, hqc, hne⟩
    · rintro ⟨p, hp, q, hq, hpc, hqc, hne⟩
      exact ⟨_, ⟨_, _, p, hp, hpc, rfl, rfl, rfl⟩, _, ⟨_, _, q, hq, hqc, rfl, rfl, rfl⟩,
        hne⟩
  · simp only [packet_id_differences, computeDiff]
    simp only [ne_eq, ← presence_varies_iff]
    simp [identity]
    apply or_congr_right
    constructor
    · rintro ⟨x, ⟨_, _, p, hp, hpc, _, _, rfl⟩, y, ⟨_, _, q, hq, hqc, _, _, rfl⟩, hne⟩
      exact ⟨p, hp, q, hq, hpc, hqc, hne⟩
    · rintro ⟨p, hp, q, hq, hpc, hqc, hne⟩
      exact ⟨_, ⟨_, _, p, hp, hpc, rfl, rfl, rfl⟩, _, ⟨_, _, q, hq, hqc, rfl, rfl, rfl⟩,
        hne⟩
  · simp only [packet_id_differences, computeDiff, Bool.or_eq_true, any_any_ne, ne_eq,
      ← presence_varies_iff]
    apply or_congr
    · simp [identity]
    · simp only [List.mem_filterMap, List.mem_map]
      constructor
      · rintro ⟨x, ⟨_, ⟨p, hp, rfl⟩, hx⟩, y, ⟨_, ⟨q, hq, rfl⟩, hy⟩, hne⟩
        unfold identity at hx hy
        simp only [ite_eq_iff, Option.some.injEq, reduceCtorEq, and_false, or_false] at hx hy
        exact ⟨p, hp, q, hq, hx.1, hy.1, by rw [hx.2, hy.2]; exact hne⟩
      · rintro ⟨p, hp, q, hq, hpc, hqc, hne⟩
        exact ⟨_, ⟨_, ⟨p, hp, rfl⟩, by simp [identity, hpc]⟩, _,
          ⟨_, ⟨q, hq, rfl⟩, by simp [identity, hqc]⟩, hne⟩

/-! ## C10: no rename target collides -/

/-- C10: for two or more distinct identities and flags that are sound for them, the final
paths are pairwise different (equal paths mean equal identities), every suffix is non-empty
and no final path is the input path; hence in a run where nothing throws, with a comparator
as the map requires and a diff calculator whose flags are sound, `finish` renames no two
streams to the same path and none to the input path. -/
theorem final_file_path_no_collision (file_path_in : fs_path) (v : List vrt_packet)
    (diffs : PacketIdDiffs) (hn : (v.map identity).Nodup) (hl : 2 ≤ v.length)
    (hs : sound_flags v diffs) :
    (v.map (fun p => final_file_path file_path_in p diffs)).Nodup ∧
      (∀ p ∈ v, ∀ q ∈ v, final_file_path file_path_in p diffs =
        final_file_path file_path_in q diffs → identity p = identity q) ∧
      (∀ p ∈ v, body p diffs ≠ []) ∧
      (∀ p ∈ v, final_file_path file_path_in p diffs ≠ file_path_in) ∧
      ∀ (comp : vrt_packet → vrt_packet → Bool), IdentityOrder comp →
        ∀ (pid : List vrt_packet → PacketIdDiffs), (∀ w, sound_flags w (pid w)) →
          ∀ (l : List (vrt_packet × List Nat)),
            ((renames (process comp no_failure pid file_path_in
              (packets_read l)).2.trace).map (fun r => r.2)).Nodup ∧
            ∀ r ∈ renames (process comp no_failure pid file_path_in
              (packets_read l)).2.trace, r.2 ≠ file_path_in := by
  obtain ⟨h1, h2, h3, h4⟩ := final_file_paths_distinct file_path_in v diffs hn hl hs
  refine ⟨h1, h2, h3, h4, ?_⟩
  intro comp hc pid hpid l
  obtain ⟨st, hp, hsorted, _, hren⟩ := process_renames hc pid file_path_in l
  rw [hp]
  simp only []
  rw [hren]
  split
  · simp
  · rename_i hlen
    have hkeys : ((st.output_streams.map (fun el => el.1)).map identity).Nodup := by
      simpa [Function.comp] using sorted_identity_inj hc hsorted
    obtain ⟨g1, _, _, g4⟩ := final_file_paths_distinct file_path_in
      (st.output_streams.map (fun el => el.1))
      (pid (st.output_streams.map (fun el => el.1))) hkeys
      (by simp only [List.length_map]; omega) (hpid _)
    constructor
    · simpa [Function.comp] using g1
    · intro r hr
      obtain ⟨el, hel, rfl⟩ := List.mem_map.1 hr
      exact g4 el.1 (List.mem_map.2 ⟨el, hel, rfl⟩)

theorem final_file_path_no_collision_witness :
    ([stream_packet 0, stream_packet 1, data_packet false false 0 0 0 0].map
        (fun p => final_file_path "test_tmp/split.vrt".toList p stream_diffs)).Nodup ∧
      (∀ p ∈ [stream_packet 0, stream_packet 1, data_packet false false 0 0 0 0],
        final_file_path "test_tmp/split.vrt".toList p stream_diffs ≠
          "test_tmp/split.vrt".toList) ∧
      ((renames (process ComparatorId no_failure packet_id_differences
        "test_tmp/split.vrt".toList (packets_read two_streams)).2.trace).map
          (fun r => r.2)).Nodup :=
  have h := final_file_path_no_collision "test_tmp/split.vrt".toList
    [stream_packet 0, stream_packet 1, data_packet false false 0 0 0 0] stream_diffs
    (by decide) (by decide)
    ⟨by decide, by decide, by decide, by decide, by decide, by decide⟩
  ⟨h.1, h.2.2.2.1,
    (h.2.2.2.2 ComparatorId ComparatorId_order packet_id_differences
      packet_id_differences_sound two_streams).1⟩

theorem read_packet_trace (comp : vrt_packet → vrt_packet → Bool) (ω : Oracle)
    (file_path_in : fs_path) (p : vrt_packet) (data : List Nat) (st : State) :
    ∃ t, (read_packet comp ω file_path_in p data st).2.trace = st.trace ++ t ∧
      (∀ c ∈ t, c.1.is_read_loop_call = true) ∧
      (((read_packet comp ω file_path_in p data st).1 = none ∧ ∀ c ∈ t, c.2 = none) ∨
        ∃ e t1 c, (read_packet comp ω file_path_in p data st).1 = some e ∧
          t = t1 ++ [(c, some e)] ∧ ∀ c1 ∈ t1, c1.2 = none) := by
  unfold read_packet
  cases hf : map_find comp st.output_streams p with
  | some it =>
    simp only [perform]
    refine ⟨[(Call.write it.2 p.header data, ω st.trace.length
      (Call.write it.2 p.header data))], rfl, by simp [Call.is_read_loop_call], ?_⟩
    cases hω : ω st.trace.length (Call.write it.2 p.header data) with
    | none => left; simp
    | some e => right; exact ⟨e, [], _, rfl, rfl, by simp⟩
  | none =>
    simp only [perform]
    cases hω : ω st.trace.length (Call.construct ⟨file_path_in, p⟩) with
    | some e =>
      refine ⟨[(Call.construct ⟨file_path_in, p⟩, some e)], rfl,
        by simp [Call.is_read_loop_call], ?_⟩
      right
      exact ⟨e, [], _, rfl, rfl, by simp⟩
    | none =>
      simp only []
      refine ⟨[(Call.construct ⟨file_path_in, p⟩, none),
        (Call.write (map_emplace comp p ⟨file_path_in, p⟩ st.output_streams).2.2 p.header data,
          ω (st.trace ++ [(Call.construct ⟨file_path_in, p⟩, none)]).length
            (Call.write (map_emplace comp p ⟨file_path_in, p⟩ st.output_streams).2.2
              p.header data))], by simp, by simp [Call.is_read_loop_call], ?_⟩
      cases hω2 : ω (st.trace ++ [(Call.construct ⟨file_path_in, p⟩, none)]).length
          (Call.write (map_emplace comp p ⟨file_path_in, p⟩ st.output_streams).2.2
            p.header data) with
      | none => left; simp
      | some e =>
        right
        exact ⟨e, [(Call.construct ⟨file_path_in, p⟩, none)], _, rfl, rfl, by simp⟩

theorem read_loop_trace (comp : vrt_packet → vrt_packet → Bool) (ω : Oracle)
    (file_path_in : fs_path) :
    ∀ (input : List ReadResult) (st : State),
      ∃ t, (read_loop comp ω file_path_in input st).2.trace = st.trace ++ t ∧
        (∀ c ∈ t, c.1.is_read_loop_call = true) ∧
        ((∀ c ∈ t, c.2 = none) ∨
          ∃ e t1 c, (read_loop comp ω file_path_in input st).1 = some e ∧
            t = t1 ++ [(c, some e)] ∧ ∀ c1 ∈ t1, c1.2 = none)
  | [], st => ⟨[], by simp [read_loop], by simp, Or.inl (by simp)⟩
  | .error e :: _, st => ⟨[], by simp [read_loop], by simp, Or.inl (by simp)⟩
  | .packet p data :: rest, st => by
    obtain ⟨t, ht, hcalls, hout⟩ := read_packet_trace comp ω file_path_in p data st
    unfold read_loop
    cases hr : read_packet comp ω file_path_in p data st with
    | mk r st1 =>
      rw [hr] at ht hout
      cases r with
      | some e =>
        refine ⟨t, ht, hcalls, ?_⟩
        rcases hout with ⟨h, _⟩ | ⟨e1, t1, c, h1, h2, h3⟩
        · simp at h
        · exact Or.inr ⟨e1, t1, c, h1, h2, h3⟩
      | none =>
        have hnone : ∀ c ∈ t, c.2 = none := by
          rcases hout with ⟨_, h⟩ | ⟨e1, t1, c, h1, _, _⟩
          · exact h
          · simp at h1
        obtain ⟨u, hu, hucalls, huout⟩ := read_loop_trace comp ω file_path_in rest st1
        refine ⟨t ++ u, ?_, ?_, ?_⟩
        · simp only []
          rw [hu, ht, List.append_assoc]
        · intro c hc
          rcases List.mem_append.1 hc with hc | hc
          · exact hcalls c hc
          · exact hucalls c hc
        · rcases huout with h | ⟨e1, u1, c, h1, h2, h3⟩
          · left
            intro c hc
            rcases List.mem_append.1 hc with hc | hc
            · exact hnone c hc
            · exact h c hc
          · right
            refine ⟨e1, t ++ u1, c, h1, by rw [h2, List.append_assoc], ?_⟩
            intro c1 hc1
            rcases List.mem_append.1 hc1 with hc1 | hc1
            · exact hnone c1 hc1
            · exact h3 c1 hc1


/-! ## C9: the interrupt handler -/

/-- C5 (as stated, refuted): two streams, the second rename throws. `finish` rethrows after
calling `remove_new` on both streams; the second stream is registered, its rename failed, and
`remove_temporary` is never called on it, nor on the first: no call of the run deletes the
temporary file that is left. -/
theorem finish_rename_failure_keeps_temporary :
    (process ComparatorId (fail_at 5 .filesystem_error) packet_id_differences
        "split.vrt".toList (packets_read two_streams)).1 = some .filesystem_error ∧
      (process ComparatorId (fail_at 5 .filesystem_error) packet_id_differences
        "split.vrt".toList (packets_read two_streams)).2.trace =
        [(.construct (stream_of (stream_packet 0)), none),
          (.write (stream_of (stream_packet 0)) (stream_packet 0).header [10], none),
          (.construct (stream_of (stream_packet 1)), none),
          (.write (stream_of (stream_packet 1)) (stream_packet 1).header [11], none),
          (.rename (stream_of (stream_packet 0)) "split_0.vrt".toList, none),
          (.rename (stream_of (stream_packet 1)) "split_1.vrt".toList,
            some .filesystem_error),
          (.remove_new (stream_of (stream_packet 0)), none),
          (.remove_new (stream_of (stream_packet 1)), none)] ∧
      ¬ (∀ el ∈ (process ComparatorId (fail_at 5 .filesystem_error) packet_id_differences
          "split.vrt".toList (packets_read two_streams)).2.output_streams,
        Call.remove_new el.2 ∈ calls (process ComparatorId (fail_at 5 .filesystem_error)
          packet_id_differences "split.vrt".toList (packets_read two_streams)).2.trace ∧
        Call.remove_temporary el.2 ∈ calls (process ComparatorId (fail_at 5 .filesystem_error)
          packet_id_differences "split.vrt".toList (packets_read two_streams)).2.trace) := by
  refine ⟨by decide, by decide, by decide⟩

/-- The rename loop when the renames of `pre` return and the rename of the next entry throws
`e`: the loop ends there with `e`. -/
theorem rename_loop_throws (ω : Oracle) (file_path_in : fs_path) (diffs : PacketIdDiffs)
    (el : vrt_packet × OutputStream) (post : List (vrt_packet × OutputStream)) (e : Exn) :
    ∀ (pre : List (vrt_packet × OutputStream)) (st : State),
      (∀ i x, pre[i]? = some x →
        ω (st.trace.length + i)
          (Call.rename x.2 (final_file_path file_path_in x.1 diffs)) = none) →
      ω (st.trace.length + pre.length)
        (Call.rename el.2 (final_file_path file_path_in el.1 diffs)) = some e →
      rename_loop ω file_path_in diffs (pre ++ el :: post) st =
        (some e, ⟨st.output_streams,
          st.trace ++ pre.map (fun x =>
              (Call.rename x.2 (final_file_path file_path_in x.1 diffs), none)) ++
            [(Call.rename el.2 (final_file_path file_path_in el.1 diffs), some e)]⟩)
  | [], st, _, hthrow => by
    simp only [List.length_nil, Nat.add_zero] at hthrow
    simp [rename_loop, perform, hthrow]
  | x :: pre, st, hok, hthrow => by
    have h0 := hok 0 x (by simp)
    simp only [Nat.add_zero] at h0
    have ih := rename_loop_throws ω file_path_in diffs el post e pre
      (perform ω (Call.rename x.2 (final_file_path file_path_in x.1 diffs)) st).2
      (by
        intro i y hy
        have := hok (i + 1) y (by simpa using hy)
        simp only [perform, List.length_append, List.length_singleton]
        rw [show st.trace.length + 1 + i = st.trace.length + (i + 1) by omega]
        exact this)
      (by
        simp only [perform, List.length_append, List.length_singleton]
        rw [show st.trace.length + 1 + pre.length = st.trace.length + (x :: pre).length by
          simp only [List.length_cons]; omega]
        exact hthrow)
    simp only [List.cons_append, rename_loop, perform, h0] at ih ⊢
    exact ih.trans (by simp)

/-- C5 (amended): with two or more streams in the map and removals that throw nothing but
filesystem errors, when the renames of the entries `pre` return and the rename of the next
entry `el` throws `e`, no rename follows, `finish` calls `remove_new` on every registered
stream, in key order, leaves the map as it is and then raises `e` again. -/
theorem finish_removes_new_on_rename_failure {ω : Oracle}
    (hfs : removals_throw_filesystem_errors ω) (pid : List vrt_packet → PacketIdDiffs)
    (file_path_in : fs_path) (st : State) (hlen : 2 ≤ st.output_streams.length)
    (pre : List (vrt_packet × OutputStream)) (el : vrt_packet × OutputStream)
    (post : List (vrt_packet × OutputStream)) (e : Exn)
    (hsplit : st.output_streams = pre ++ el :: post)
    (hok : ∀ i x, pre[i]? = some x →
      ω (st.trace.length + i) (Call.rename x.2 (final_file_path file_path_in x.1
        (pid (st.output_streams.map (fun el => el.1))))) = none)
    (hthrow : ω (st.trace.length + pre.length) (Call.rename el.2
      (final_file_path file_path_in el.1
        (pid (st.output_streams.map (fun el => el.1))))) = some e) :
    ∃ t, finish ω pid file_path_in st =
        (some e, ⟨st.output_streams,
          st.trace ++ pre.map (fun x => (Call.rename x.2 (final_file_path file_path_in x.1
              (pid (st.output_streams.map (fun el => el.1)))), none)) ++
            [(Call.rename el.2 (final_file_path file_path_in el.1
              (pid (st.output_streams.map (fun el => el.1)))), some e)] ++ t⟩) ∧
      calls t = st.output_streams.map (fun x => Call.remove_new x.2) := by
  have hnot : ¬ st.output_streams.length ≤ 1 := by omega
  have hr := rename_loop_throws ω file_path_in
    (pid (st.output_streams.map (fun el => el.1))) el post e pre st hok hthrow
  rw [← hsplit] at hr
  obtain ⟨t, ht, hcalls⟩ := remove_new_loop_spec hfs st.output_streams
    ⟨st.output_streams,
      st.trace ++ pre.map (fun x => (Call.rename x.2 (final_file_path file_path_in x.1
          (pid (st.output_streams.map (fun el => el.1)))), none)) ++
        [(Call.rename el.2 (final_file_path file_path_in el.1
          (pid (st.output_streams.map (fun el => el.1)))), some e)]⟩
  refine ⟨t, ?_, hcalls⟩
  unfold finish
  simp only [hnot, if_false, hr, ht]

theorem finish_removes_new_on_rename_failure_witness :
    (finish (fail_at 1 .filesystem_error) packet_id_differences "split.vrt".toList
        ⟨[(stream_packet 0, stream_of (stream_packet 0)),
          (stream_packet 1, stream_of (stream_packet 1))], []⟩).1 = some .filesystem_error ∧
      Call.remove_new (stream_of (stream_packet 0)) ∈
        calls (finish (fail_at 1 .filesystem_error) packet_id_differences "split.vrt".toList
          ⟨[(stream_packet 0, stream_of (stream_packet 0)),
            (stream_packet 1, stream_of (stream_packet 1))], []⟩).2.trace := by
  obtain ⟨t, hfin, hcalls⟩ :=
    finish_removes_new_on_rename_failure (fail_at_filesystem_errors 1) packet_id_differences
      "split.vrt".toList
      ⟨[(stream_packet 0, stream_of (stream_packet 0)),
        (stream_packet 1, stream_of (stream_packet 1))], []⟩ (by decide)
      [(stream_packet 0, stream_of (stream_packet 0))]
      (stream_packet 1, stream_of (stream_packet 1)) [] .filesystem_error rfl
      (by
        intro i x hx
        cases i with
        | zero => simp [fail_at]
        | succ n => simp at hx)
      (by simp [fail_at])
  rw [hfin]
  refine ⟨rfl, ?_⟩
  simp only [calls_append, hcalls]
  apply List.mem_append_right
  simp

/-! ## C8: a failure in the read loop -/

/-- C8 (as stated, refuted): the write of the second packet throws. The exception leaves
`process` with both streams created and registered, and no `remove_temporary` has been
called on either: `process` removes no temporary file before the error propagates. The same
when the second read throws. -/
theorem read_loop_failure_keeps_temporary :
    process ComparatorId (fail_at 3 .other) packet_id_differences "split.vrt".toList
        (packets_read two_streams) =
      (some .other,
        ⟨[(stream_packet 0, stream_of (stream_packet 0)),
          (stream_packet 1, stream_of (stream_packet 1))],
        [(.construct (stream_of (stream_packet 0)), none),
          (.write (stream_of (stream_packet 0)) (stream_packet 0).header [10], none),
          (.construct (stream_of (stream_packet 1)), none),
          (.write (stream_of (stream_packet 1)) (stream_packet 1).header [11],
            some .other)]⟩) ∧
      process ComparatorId no_failure packet_id_differences "split.vrt".toList
        [.packet (stream_packet 0) [10], .error .other] =
      (some .other,
        ⟨[(stream_packet 0, stream_of (stream_packet 0))],
        [(.construct (stream_of (stream_packet 0)), none),
          (.write (stream_of (stream_packet 0)) (stream_packet 0).header [10], none)]⟩) ∧
      ¬ (∀ s ∈ created_streams (process ComparatorId (fail_at 3 .other)
          packet_id_differences "split.vrt".toList (packets_read two_streams)).2.trace,
        Call.remove_temporary s ∈ calls (process ComparatorId (fail_at 3 .other)
          packet_id_differences "split.vrt".toList (packets_read two_streams)).2.trace) := by
  refine ⟨by decide, by decide, by decide⟩

theorem map_emplace_fresh (comp : vrt_packet → vrt_packet → Bool) (k : vrt_packet)
    (s : OutputStream) :
    ∀ (m : List (vrt_packet × OutputStream)), map_find comp m k = none →
      (map_emplace comp k s m).2 = (k, s)
  | [], _ => rfl
  | el :: m, hf => by
    unfold map_find at hf
    rw [List.find?_cons] at hf
    cases hb : (!comp el.1 k && !comp k el.1) with
    | true => rw [hb] at hf; simp at hf
    | false =>
      rw [hb] at hf
      have ih := map_emplace_fresh comp k s m hf
      unfold map_emplace
      cases h1 : comp el.1 k with
      | true => simpa using ih
      | false =>
        cases h2 : comp k el.1 with
        | true => simp
        | false => rw [h1, h2] at hb; simp at hb

/-- The read loop on an input in two parts: the second part is read from the state the first
part ends in, unless the first part ends with an exception. -/
theorem read_loop_append (comp : vrt_packet → vrt_packet → Bool) (ω : Oracle)
    (file_path_in : fs_path) :
    ∀ (a b : List ReadResult) (st : State),
      read_loop comp ω file_path_in (a ++ b) st =
        match read_loop comp ω file_path_in a st with
        | (some e, s) => (some e, s)
        | (none, s) => read_loop comp ω file_path_in b s
  | [], b, st => by simp [read_loop]
  | .error e :: a, b, st => by simp [read_loop]
  | .packet p data :: a, b, st => by
    simp only [List.cons_append, read_loop]
    cases hr : read_packet comp ω file_path_in p data st with
    | mk r st1 =>
      cases r with
      | some e => rfl
      | none => exact read_loop_append comp ω file_path_in a b st1

theorem read_packet_no_failure (comp : vrt_packet → vrt_packet → Bool)
    (file_path_in : fs_path) (p : vrt_packet) (data : List Nat) (st : State) :
    (read_packet comp no_failure file_path_in p data st).1 = none := by
  unfold read_packet
  cases map_find comp st.output_streams p <;> simp [perform, no_failure]

/-- One packet under an oracle that throws at none of the calls the packet takes when
nothing throws: the same as when nothing throws. -/
theorem read_packet_agree (comp : vrt_packet → vrt_packet → Bool) (ω : Oracle)
    (file_path_in : fs_path) (p : vrt_packet) (data : List Nat) (st : State)
    (h : ∀ m c, m < (read_packet comp no_failure file_path_in p data st).2.trace.length →
      ω m c = none) :
    read_packet comp ω file_path_in p data st =
      read_packet comp no_failure file_path_in p data st := by
  unfold read_packet at h ⊢
  cases hf : map_find comp st.output_streams p with
  | some it =>
    rw [hf] at h
    simp only [perform, no_failure, List.length_append, List.length_singleton] at h ⊢
    rw [h st.trace.length _ (by omega)]
  | none =>
    rw [hf] at h
    simp only [perform, no_failure, List.length_append, List.length_singleton] at h ⊢
    rw [h st.trace.length _ (by omega)]
    simp only []
    rw [h (st.trace.length + 1) _ (by omega)]

theorem read_loop_no_failure (comp : vrt_packet → vrt_packet → Bool)
    (file_path_in : fs_path) :
    ∀ (l : List (vrt_packet × List Nat)) (st : State),
      (read_loop comp no_failure file_path_in (packets_read l) st).1 = none
  | [], _ => rfl
  | pd :: l, st => by
    have h1 := read_packet_no_failure comp file_path_in pd.1 pd.2 st
    simp only [packets_read, List.map_cons, read_loop]
    cases hr : read_packet comp no_failure file_path_in pd.1 pd.2 st with
    | mk r st1 =>
      rw [hr] at h1
      simp only [] at h1
      subst h1
      exact read_loop_no_failure comp file_path_in l st1

theorem read_loop_trace_length (comp : vrt_packet → vrt_packet → Bool) (ω : Oracle)
    (file_path_in : fs_path) (input : List ReadResult) (st : State) :
    st.trace.length ≤ (read_loop comp ω file_path_in input st).2.trace.length := by
  obtain ⟨t, ht, _⟩ := read_loop_trace comp ω file_path_in input st
  rw [ht, List.length_append]
  omega

/-- The read loop under an oracle that throws at none of the calls the packets take when
nothing throws: the same as when nothing throws. -/
theorem read_loop_agree (comp : vrt_packet → vrt_packet → Bool) (ω : Oracle)
    (file_path_in : fs_path) :
    ∀ (l : List (vrt_packet × List Nat)) (st : State),
      (∀ m c, m < (read_loop comp no_failure file_path_in (packets_read l) st).2.trace.length →
        ω m c = none) →
      read_loop comp ω file_path_in (packets_read l) st =
        read_loop comp no_failure file_path_in (packets_read l) st
  | [], _, _ => rfl
  | pd :: l, st, h => by
    have h1 := read_packet_no_failure comp file_path_in pd.1 pd.2 st
    simp only [packets_read, List.map_cons, read_loop] at h ⊢
    cases hr : read_packet comp no_failure file_path_in pd.1 pd.2 st with
    | mk r st1 =>
      rw [hr] at h1 h
      simp only [] at h1
      subst h1
      simp only [] at h
      have hagree := read_packet_agree comp ω file_path_in pd.1 pd.2 st (by
        intro m c hm
        rw [hr] at hm
        exact h m c (lt_of_lt_of_le hm
          (read_loop_trace_length comp no_failure file_path_in _ st1)))
      rw [hagree, hr]
      exact read_loop_agree comp ω file_path_in l st1 h

/-- Under an oracle that throws at none of the calls the packets `l` take, the read loop
reaches `state_after` normally. -/
theorem read_loop_prefix (comp : vrt_packet → vrt_packet → Bool) (ω : Oracle)
    (file_path_in : fs_path) (l : List (vrt_packet × List Nat))
    (hpre : ∀ m c, m < (state_after comp file_path_in l).trace.length → ω m c = none) :
    read_loop comp ω file_path_in (packets_read l) ⟨[], []⟩ =
      (none, state_after comp file_path_in l) := by
  rw [read_loop_agree comp ω file_path_in l ⟨[], []⟩ hpre]
  exact Prod.ext (read_loop_no_failure comp file_path_in l ⟨[], []⟩) rfl

theorem state_after_trace (comp : vrt_packet → vrt_packet → Bool) (file_path_in : fs_path)
    (l : List (vrt_packet × List Nat)) :
    ∀ c ∈ (state_after comp file_path_in l).trace,
      c.1.is_read_loop_call = true ∧ c.2 = none := by
  obtain ⟨t, ht, hcalls, hout⟩ :=
    read_loop_trace comp no_failure file_path_in (packets_read l) ⟨[], []⟩
  simp only [List.nil_append] at ht
  unfold state_after
  rw [ht]
  intro c hc
  refine ⟨hcalls c hc, ?_⟩
  rcases hout with h | ⟨e, _, _, h, _, _⟩
  · exact h c hc
  · rw [read_loop_no_failure] at h
    simp at h

/-- C8 (amended): let the packets `l` be read and written without an exception, to the state
`state_after`. If the next read throws `e`, or the next call (a constructor call, or the
write to a stream that exists) throws `e`, or the constructor call for a new stream returns
and its first write throws `e`, then `process` ends at once with `e`, whatever follows in the
input: the failing call, if any, is the last call made (no retry), no later packet is read,
`finish` is not called (the trace holds constructor calls and writes only, so nothing is
renamed), and every stream created so far is in the map. -/
theorem read_loop_failure_is_fatal (comp : vrt_packet → vrt_packet → Bool) (ω : Oracle)
    (pid : List vrt_packet → PacketIdDiffs) (file_path_in : fs_path)
    (l : List (vrt_packet × List Nat)) (rest : List ReadResult) (e : Exn)
    (hpre : ∀ m c, m < (state_after comp file_path_in l).trace.length → ω m c = none) :
    process comp ω pid file_path_in (packets_read l ++ .error e :: rest) =
        (some e, state_after comp file_path_in l) ∧
      (∀ p data, (∀ c, ω (state_after comp file_path_in l).trace.length c = some e) →
        process comp ω pid file_path_in (packets_read l ++ .packet p data :: rest) =
          (some e, ⟨(state_after comp file_path_in l).output_streams,
            (state_after comp file_path_in l).trace ++
              [(match map_find comp (state_after comp file_path_in l).output_streams p with
                | some it => Call.write it.2 p.header data
                | none => Call.construct ⟨file_path_in, p⟩, some e)]⟩)) ∧
      (∀ p data, map_find comp (state_after comp file_path_in l).output_streams p = none →
        ω (state_after comp file_path_in l).trace.length
          (Call.construct ⟨file_path_in, p⟩) = none →
        ω ((state_after comp file_path_in l).trace.length + 1)
          (Call.write ⟨file_path_in, p⟩ p.header data) = some e →
        process comp ω pid file_path_in (packets_read l ++ .packet p data :: rest) =
          (some e, ⟨(map_emplace comp p ⟨file_path_in, p⟩
              (state_after comp file_path_in l).output_streams).1,
            (state_after comp file_path_in l).trace ++
              [(Call.construct ⟨file_path_in, p⟩, none),
                (Call.write ⟨file_path_in, p⟩ p.header data, some e)]⟩)) ∧
      (∀ c ∈ (state_after comp file_path_in l).trace,
        c.1.is_read_loop_call = true ∧ c.2 = none) ∧
      renames (state_after comp file_path_in l).trace = [] ∧
      ∀ input, all_created_registered (process comp ω pid file_path_in input).2 := by
  have hpref := read_loop_prefix comp ω file_path_in l hpre
  refine ⟨?_, ?_, ?_, state_after_trace comp file_path_in l,
    renames_of_read_calls _ (fun c hc => (state_after_trace comp file_path_in l c hc).1),
    fun input => process_registered comp ω pid file_path_in input⟩
  · unfold process
    rw [read_loop_append, hpref]
    rfl
  · intro p data hthrow
    unfold process
    rw [read_loop_append, hpref]
    simp only [read_loop, read_packet]
    cases hf : map_find comp (state_after comp file_path_in l).output_streams p with
    | some it => simp only [perform, hthrow]
    | none => simp only [perform, hthrow]
  · intro p data hf hc hw
    unfold process
    rw [read_loop_append, hpref]
    simp only [read_loop, read_packet, hf, perform, hc, List.length_append,
      List.length_singleton, map_emplace_fresh comp p ⟨file_path_in, p⟩ _ hf, hw]
    simp

theorem read_loop_failure_is_fatal_witness :
    process ComparatorId (fail_at 3 .other) packet_id_differences "split.vrt".toList
        (packets_read [(stream_packet 0, [10])] ++ .packet (stream_packet 1) [11] :: []) =
      (some .other,
        ⟨[(stream_packet 0, stream_of (stream_packet 0)),
          (stream_packet 1, stream_of (stream_packet 1))],
        [(.construct (stream_of (stream_packet 0)), none),
          (.write (stream_of (stream_packet 0)) (stream_packet 0).header [10], none),
          (.construct (stream_of (stream_packet 1)), none),
          (.write (stream_of (stream_packet 1)) (stream_packet 1).header [11],
            some .other)]⟩) :=
  ((read_loop_failure_is_fatal ComparatorId (fail_at 3 .other) packet_id_differences
    "split.vrt".toList [(stream_packet 0, [10])] [] .other
    (by
      intro m c hm
      have hlen : (state_after ComparatorId "split.vrt".toList
          [(stream_packet 0, [10])]).trace.length = 2 := by decide
      rw [hlen] at hm
      simp only [fail_at]
      rw [if_neg (by omega)])).2.2.1 (stream_packet 1) [11] (by decide) (by decide)
    (by decide)).trans (by decide)

end vrt.split
